import Mathlib

/-!
Shallow embedding of the structural validation engine of
`misconfig-configtemplateenforcer` (`src/main.py`), centred on the recursive
function `validate_config` (main.py lines 146-194), together with proofs of
the behavioural properties claimed for it.

Modelling conventions:
* parsed JSON/YAML documents are `Value` trees (tagged union over the Python
  runtime types the engine distinguishes via `type(...)` / `isinstance`);
* the findings the Python code emits through `logging.error` /
  `logging.warning` are reified as a `Finding` list, annotated with the key
  path at which the recursive call performing the log was running (the source
  logs only the key name; the path records the recursion position);
* Python exceptions that can escape `validate_config` on non-dict inputs
  (`AttributeError` from `template_data.items()`, `TypeError` from `in` /
  indexing / iteration on non-containers, unhashable-key `TypeError`) are
  modelled with `Except PyErr`;
* `valid` starts `True` and is and-ed across the walk; the model composes the
  per-key booleans with `&&`, which is the same conjunction.
-/

set_option autoImplicit false

namespace ConfigEnforcer

/-- Severity of a reported finding: `logging.error` vs `logging.warning`. -/
inductive Severity where
  | error
  | warning
deriving DecidableEq, Repr

/-- Kind of structural divergence reported by `validate_config`. -/
inductive FKind where
  | missingKey
  | extraKey
  | typeMismatch
deriving DecidableEq, Repr

/-- One log line emitted during the walk, with the key path it concerns. -/
structure Finding where
  path : List String
  kind : FKind
  severity : Severity
deriving DecidableEq, Repr

/-- Python exceptions that can escape `validate_config` on non-dict inputs. -/
inductive PyErr where
  | attributeError
  | typeError
  | keyError
deriving DecidableEq, Repr

/-- A parsed document tree: the Python runtime values the engine can meet.
Floats are carried as their literal text; the engine never inspects scalar
payloads, only type tags. Map keys are text (JSON object keys). -/
inductive Value where
  | vnull
  | vbool (b : Bool)
  | vint (n : Int)
  | vfloat (lit : String)
  | vstr (s : String)
  | vlist (xs : List Value)
  | vmap (es : List (String × Value))

/-- Python runtime type tags, as compared by `type(x) != type(y)`. -/
inductive PyType where
  | noneT
  | boolT
  | intT
  | floatT
  | strT
  | listT
  | dictT
deriving DecidableEq, Repr

/-- Python `isinstance(x, dict)`. -/
def isDict : Value → Bool
  | .vmap _ => true
  | _ => false

/-- The runtime type tag of a value (`type(x)` in the source). -/
def pyType : Value → PyType
  | .vnull => .noneT
  | .vbool _ => .boolT
  | .vint _ => .intT
  | .vfloat _ => .floatT
  | .vstr _ => .strT
  | .vlist _ => .listT
  | .vmap _ => .dictT

/-- Dictionary lookup `d[k]` on the insertion-ordered entry list. -/
def lookupKey : List (String × Value) → String → Option Value
  | [], _ => none
  | e :: rest, k => if e.1 == k then some e.2 else lookupKey rest k

/-- Dictionary membership `k in d` (keys only). -/
def containsK (es : List (String × Value)) (k : String) : Bool :=
  es.any (fun e => e.1 == k)

/-- Python substring test `k in s` for strings. -/
def strContains (s k : String) : Bool :=
  (List.range (s.data.length + 1)).any
    (fun i => ((s.data.drop i).take k.data.length) == k.data)

/-- Python `str(x)` for the scalar values that can appear as logged keys when
the configuration root is a list (dict/list cases are unreachable there
because membership testing raises on unhashable values first). -/
def pyStr : Value → String
  | .vnull => "None"
  | .vbool b => if b then "True" else "False"
  | .vint n => toString n
  | .vfloat lit => lit
  | .vstr s => s
  | .vlist _ => "<list>"
  | .vmap _ => "<dict>"

/-- Python `key not in config_data` (negated): membership in a dict checks
keys; in a list it compares elements; in a string it is substring search;
on other values `in` raises `TypeError`. -/
def containsKeyDyn (config_data : Value) (k : String) : Except PyErr Bool :=
  match config_data with
  | .vmap es => .ok (containsK es k)
  | .vlist xs => .ok (xs.any (fun x => match x with | .vstr s => s == k | _ => false))
  | .vstr s => .ok (strContains s k)
  | _ => .error .typeError

/-- Python `config_data[key]` with a string key: dict lookup; list and string
indexing with a string key raise `TypeError`, as does indexing a scalar. -/
def getItemDyn (config_data : Value) (k : String) : Except PyErr Value :=
  match config_data with
  | .vmap es =>
      match lookupKey es k with
      | some v => .ok v
      | none => .error .keyError
  | _ => .error .typeError

/-- Extra-key pass over a dict configuration (main.py lines 190-192): for
each configuration key absent from the template a Warning is logged. -/
def extraKeysMap (ces tes : List (String × Value)) (path : List String) : List Finding :=
  ces.filterMap (fun e =>
    if containsK tes e.1 then none
    else some ⟨path ++ [e.1], .extraKey, .warning⟩)

/-- Extra-key pass when the configuration root is a list: `for key in list`
yields the elements; `key not in template_data` raises `TypeError` on
unhashable elements (dicts, lists), matches string elements against the
template keys, and is `False` for other scalars (they never equal a text
key), so those are always logged as extra. -/
def extraList : List Value → List (String × Value) → List String → Except PyErr (List Finding)
  | [], _, _ => .ok []
  | x :: rest, tes, path =>
      match x with
      | .vmap _ => .error .typeError
      | .vlist _ => .error .typeError
      | .vstr s =>
          match extraList rest tes path with
          | .error e => .error e
          | .ok fs =>
              .ok ((if containsK tes s then [] else [⟨path ++ [s], .extraKey, .warning⟩]) ++ fs)
      | _ =>
          match extraList rest tes path with
          | .error e => .error e
          | .ok fs => .ok (⟨path ++ [pyStr x], .extraKey, .warning⟩ :: fs)

/-- Extra-key pass when the configuration root is a string: iteration yields
one-character strings which are matched against the template keys. -/
def extraStr (s : String) (tes : List (String × Value)) (path : List String) : List Finding :=
  s.data.filterMap (fun c =>
    if containsK tes (String.singleton c) then none
    else some ⟨path ++ [String.singleton c], .extraKey, .warning⟩)

/-- Extra-key pass `for key in config_data: if key not in template_data: warn`
(main.py lines 190-192), for each possible runtime shape of the
configuration; iterating a non-iterable raises `TypeError`. -/
def extraPass (config_data : Value) (tes : List (String × Value)) (path : List String) :
    Except PyErr (List Finding) :=
  match config_data with
  | .vmap ces => .ok (extraKeysMap ces tes path)
  | .vlist xs => extraList xs tes path
  | .vstr s => .ok (extraStr s tes path)
  | _ => .error .typeError

mutual

/-- `validate_config` from main.py lines 146-194.  Iterates the template's
items (raising `AttributeError` when the template is not a dict, since only
dicts have `.items()`), checks each key, then runs the extra-key pass when
neither `strict` nor `ignore_missing` is set, and returns the accumulated
`valid` flag together with the findings logged along the way. -/
def validate_config (config_data template_data : Value) (strict ignore_missing : Bool)
    (path : List String) : Except PyErr (Bool × List Finding) :=
  match template_data with
  | .vmap tes =>
      match itemsLoop config_data tes strict ignore_missing path with
      | .error e => .error e
      | .ok (v, fs) =>
          if !strict && !ignore_missing then
            match extraPass config_data tes path with
            | .error e => .error e
            | .ok fs2 => .ok (v, fs ++ fs2)
          else
            .ok (v, fs)
  | _ => .error .attributeError
termination_by 2 * sizeOf template_data
decreasing_by all_goals simp_wf

/-- The `for key, template_value in template_data.items()` loop of
`validate_config` (main.py lines 161-186): each item contributes its check's
verdict (and-ed into `valid`) and its findings, in template order. -/
def itemsLoop (config_data : Value) (tes : List (String × Value)) (strict ignore_missing : Bool)
    (path : List String) : Except PyErr (Bool × List Finding) :=
  match tes with
  | [] => .ok (true, [])
  | (key, template_value) :: rest =>
      match keyCheck config_data key template_value strict ignore_missing path with
      | .error e => .error e
      | .ok (v1, fs1) =>
          match itemsLoop config_data rest strict ignore_missing path with
          | .error e => .error e
          | .ok (v2, fs2) => .ok (v1 && v2, fs1 ++ fs2)
termination_by 2 * sizeOf tes
decreasing_by all_goals (simp_wf; try omega)

/-- The body of one iteration of the template loop (main.py lines 162-186):
missing-key handling under the two policy flags, then shape dispatch — a
dict template value recurses when the config value is a dict and reports a
type mismatch otherwise; a non-dict template value is compared by runtime
type tag only. -/
def keyCheck (config_data : Value) (key : String) (template_value : Value)
    (strict ignore_missing : Bool) (path : List String) : Except PyErr (Bool × List Finding) :=
  match containsKeyDyn config_data key with
  | .error e => .error e
  | .ok present =>
      if !present then
        .ok (if strict then (false, [⟨path ++ [key], .missingKey, .error⟩])
             else if !ignore_missing then (true, [⟨path ++ [key], .missingKey, .warning⟩])
             else (true, []))
      else
        match getItemDyn config_data key with
        | .error e => .error e
        | .ok config_value =>
            if isDict template_value then
              if isDict config_value then
                validate_config config_value template_value strict ignore_missing
                  (path ++ [key])
              else
                .ok (false, [⟨path ++ [key], .typeMismatch, .error⟩])
            else
              .ok (if pyType template_value = pyType config_value then (true, [])
                   else (false, [⟨path ++ [key], .typeMismatch, .error⟩]))
termination_by 2 * sizeOf template_value + 1
decreasing_by all_goals simp_wf

end

/-- Keys of a dict are pairwise distinct (Python dicts cannot hold duplicate
keys); `nodupKeys` checks this for one entry list. -/
def nodupKeys : List (String × Value) → Bool
  | [] => true
  | e :: rest => !containsK rest e.1 && nodupKeys rest

mutual

/-- Well-formedness of a parsed document: every dict in it, at any depth, has
pairwise-distinct keys.  Every tree produced by `json.load` / `yaml.safe_load`
satisfies this. -/
def WF : Value → Bool
  | .vmap es => nodupKeys es && WFentries es
  | .vlist xs => WFvalues xs
  | _ => true

/-- `WF` for all values of a dict entry list. -/
def WFentries : List (String × Value) → Bool
  | [] => true
  | e :: rest => WF e.2 && WFentries rest

/-- `WF` for all elements of a list value. -/
def WFvalues : List Value → Bool
  | [] => true
  | x :: rest => WF x && WFvalues rest

end

/-- Number of Error-severity findings in a report. -/
def errCount (fs : List Finding) : Nat :=
  (fs.filter (fun f => f.severity = Severity.error)).length

/-- Number of Warning-severity MissingKey findings in a report. -/
def warnMissingCount (fs : List Finding) : Nat :=
  (fs.filter (fun f => f.severity = Severity.warning ∧ f.kind = FKind.missingKey)).length

/-- `pathUnder q p` holds when `q` is a leading segment of the path `p`. -/
def pathUnder : List String → List String → Bool
  | [], _ => true
  | _ :: _, [] => false
  | a :: as, b :: bs => a == b && pathUnder as bs

/-- Number of occurrences of one finding in a report. -/
def countF (fs : List Finding) (f : Finding) : Nat :=
  (fs.filter (fun g => g = f)).length

/-- A value stored in a dict entry list is smaller than the dict value. -/
theorem sizeOf_val_lt_of_mem {tes : List (String × Value)} {k : String} {tv : Value}
    (h : (k, tv) ∈ tes) : sizeOf tv < sizeOf (Value.vmap tes) := by
  have h1 : sizeOf (k, tv) < sizeOf tes := List.sizeOf_lt_of_mem h
  have h2 : sizeOf (Value.vmap tes) = 1 + sizeOf tes := by simp
  have h3 : sizeOf (k, tv) = 1 + sizeOf k + sizeOf tv := by simp
  omega

/-- Structural strong induction for `Value` along dict nesting: to prove a
property of every value it is enough to prove it of `t` assuming it for every
value stored in `t` when `t` is a dict. -/
theorem value_strong_ind (P : Value → Prop)
    (h : ∀ t, (∀ tes k tv, t = Value.vmap tes → (k, tv) ∈ tes → P tv) → P t) :
    ∀ t, P t := by
  have key : ∀ n t, sizeOf t ≤ n → P t := by
    intro n
    induction n with
    | zero =>
        intro t ht
        exfalso
        cases t <;> simp_all
    | succ n ih =>
        intro t ht
        refine h t ?_
        intro tes k tv hEq hMem
        refine ih tv ?_
        have hlt := sizeOf_val_lt_of_mem hMem
        subst hEq
        omega
  intro t
  exact key (sizeOf t) t (Nat.le_refl _)

/-- Presence of a key is the same as the lookup succeeding. -/
theorem lookupKey_isSome (es : List (String × Value)) (k : String) :
    (lookupKey es k).isSome = containsK es k := by
  induction es with
  | nil => simp [lookupKey, containsK]
  | cons e rest ih =>
      cases h : (e.1 == k) <;>
        simp_all [lookupKey, containsK, List.any_cons]

/-- An entry's key is contained in its list. -/
theorem containsK_of_mem {es : List (String × Value)} {k : String} {tv : Value}
    (h : (k, tv) ∈ es) : containsK es k = true := by
  refine List.any_eq_true.mpr ⟨(k, tv), h, ?_⟩
  simp

/-- With pairwise-distinct keys, lookup of an entry's key returns exactly that
entry's value. -/
theorem lookupKey_of_nodup_mem {es : List (String × Value)} {k : String} {tv : Value}
    (hnd : nodupKeys es = true) (h : (k, tv) ∈ es) : lookupKey es k = some tv := by
  induction es with
  | nil => cases h
  | cons e rest ih =>
      have hnd' : (!containsK rest e.1 && nodupKeys rest) = true := hnd
      rw [Bool.and_eq_true, Bool.not_eq_true'] at hnd'
      rcases List.mem_cons.mp h with h1 | h1
      · subst h1
        simp [lookupKey]
      · have hk : e.1 ≠ k := by
          intro hEq
          have := containsK_of_mem h1
          rw [hEq] at hnd'
          exact absurd this (by simp [hnd'.1])
        simp [lookupKey, hk, ih hnd'.2 h1]

/-- Every finding of the list-shaped extra-key pass is an ExtraKey warning
one key below the current path. -/
theorem extraList_shape :
    ∀ (xs : List Value) (tes : List (String × Value)) (p : List String) (fs : List Finding),
      extraList xs tes p = .ok fs →
      ∀ f ∈ fs, f.kind = FKind.extraKey ∧ f.severity = Severity.warning ∧
        ∃ k, f.path = p ++ [k] := by
  intro xs
  induction xs with
  | nil =>
      intro tes p fs h f hf
      simp only [extraList, Except.ok.injEq] at h
      subst h
      cases hf
  | cons x rest ih =>
      intro tes p fs h f hf
      have defaultStep : ∀ k0, (match extraList rest tes p with
            | .error e => Except.error e
            | .ok fs0 => .ok (⟨p ++ [k0], .extraKey, .warning⟩ :: fs0)) = Except.ok fs →
          f.kind = FKind.extraKey ∧ f.severity = Severity.warning ∧
            ∃ k, f.path = p ++ [k] := by
        intro k0 hm
        cases hr : extraList rest tes p with
        | error e => rw [hr] at hm; simp at hm
        | ok fs' =>
            rw [hr] at hm
            simp only [Except.ok.injEq] at hm
            subst hm
            rcases List.mem_cons.mp hf with h1 | h1
            · subst h1; exact ⟨rfl, rfl, k0, rfl⟩
            · exact ih tes p fs' hr f h1
      cases x with
      | vmap es => simp [extraList] at h
      | vlist xs2 => simp [extraList] at h
      | vnull => exact defaultStep _ (by simpa [extraList] using h)
      | vbool b => exact defaultStep _ (by simpa [extraList] using h)
      | vint n => exact defaultStep _ (by simpa [extraList] using h)
      | vfloat lit => exact defaultStep _ (by simpa [extraList] using h)
      | vstr s =>
          simp only [extraList] at h
          cases hr : extraList rest tes p with
          | error e => rw [hr] at h; simp at h
          | ok fs' =>
              rw [hr] at h
              simp only [Except.ok.injEq] at h
              subst h
              rcases List.mem_append.mp hf with h1 | h1
              · by_cases hc : containsK tes s
                · rw [if_pos hc] at h1
                  cases h1
                · rw [if_neg hc] at h1
                  have h2 := List.mem_singleton.mp h1
                  subst h2
                  exact ⟨rfl, rfl, s, rfl⟩
              · exact ih tes p fs' hr f h1

/-- Every finding of the extra-key pass, for any configuration shape, is an
ExtraKey warning one key below the current path. -/
theorem extraPass_shape {config : Value} {tes : List (String × Value)} {p : List String}
    {fs : List Finding} (h : extraPass config tes p = .ok fs) :
    ∀ f ∈ fs, f.kind = FKind.extraKey ∧ f.severity = Severity.warning ∧
      ∃ k, f.path = p ++ [k] := by
  intro f hf
  cases config with
  | vmap ces =>
      simp only [extraPass, Except.ok.injEq] at h
      subst h
      rcases List.mem_filterMap.mp hf with ⟨e, _, he⟩
      by_cases hc : containsK tes e.1
      · rw [if_pos hc] at he; cases he
      · rw [if_neg hc] at he
        cases he
        exact ⟨rfl, rfl, e.1, rfl⟩
  | vlist xs => exact extraList_shape xs tes p fs h f hf
  | vstr s =>
      simp only [extraPass, Except.ok.injEq] at h
      subst h
      rcases List.mem_filterMap.mp hf with ⟨c, _, hc⟩
      by_cases hk : containsK tes (String.singleton c)
      · rw [if_pos hk] at hc; cases hc
      · rw [if_neg hk] at hc
        cases hc
        exact ⟨rfl, rfl, String.singleton c, rfl⟩
  | vnull => simp [extraPass] at h
  | vbool b => simp [extraPass] at h
  | vint n => simp [extraPass] at h
  | vfloat lit => simp [extraPass] at h

/-- A value whose `isinstance(x, dict)` test succeeds is a dict. -/
theorem isDict_eq_true {t : Value} (h : isDict t = true) : ∃ es, t = Value.vmap es := by
  cases t
  case vmap es => exact ⟨es, rfl⟩
  all_goals simp [isDict] at h

/-- Unfolding of `validate_config` on a dict template. -/
theorem validate_map_eq (config : Value) (tes : List (String × Value)) (s i : Bool)
    (p : List String) :
    validate_config config (Value.vmap tes) s i p =
      match itemsLoop config tes s i p with
      | .error e => .error e
      | .ok (v, fs) =>
          if !s && !i then
            match extraPass config tes p with
            | .error e => .error e
            | .ok fs2 => .ok (v, fs ++ fs2)
          else .ok (v, fs) := by
  rw [validate_config]

/-- Unfolding of the empty template loop. -/
theorem itemsLoop_nil (config : Value) (s i : Bool) (p : List String) :
    itemsLoop config [] s i p = .ok (true, []) := by
  rw [itemsLoop]

/-- Unfolding of one step of the template loop. -/
theorem itemsLoop_cons (config : Value) (key : String) (tv : Value)
    (rest : List (String × Value)) (s i : Bool) (p : List String) :
    itemsLoop config ((key, tv) :: rest) s i p =
      match keyCheck config key tv s i p with
      | .error e => .error e
      | .ok (v1, fs1) =>
          match itemsLoop config rest s i p with
          | .error e => .error e
          | .ok (v2, fs2) => .ok (v1 && v2, fs1 ++ fs2) := by
  rw [itemsLoop]

/-- Behaviour of one key check when the configuration is a dict, phrased by
the outcome of the dictionary lookup. -/
theorem keyCheck_map_eq (ces : List (String × Value)) (key : String) (tv : Value)
    (s i : Bool) (p : List String) :
    keyCheck (Value.vmap ces) key tv s i p =
      match lookupKey ces key with
      | none =>
          .ok (if s then (false, [⟨p ++ [key], .missingKey, .error⟩])
               else if !i then (true, [⟨p ++ [key], .missingKey, .warning⟩])
               else (true, []))
      | some cv =>
          if isDict tv then
            if isDict cv then validate_config cv tv s i (p ++ [key])
            else .ok (false, [⟨p ++ [key], .typeMismatch, .error⟩])
          else
            .ok (if pyType tv = pyType cv then (true, [])
                 else (false, [⟨p ++ [key], .typeMismatch, .error⟩])) := by
  cases hl : lookupKey ces key with
  | none =>
      have hc : containsK ces key = false := by
        rw [← lookupKey_isSome, hl]
        rfl
      rw [keyCheck]
      simp [containsKeyDyn, hc]
  | some cv =>
      have hc : containsK ces key = true := by
        rw [← lookupKey_isSome, hl]
        rfl
      rw [keyCheck]
      simp [containsKeyDyn, getItemDyn, hc, hl]

/-- `keyCheck` on a dict configuration when the key is present. -/
theorem keyCheck_map_some {ces : List (String × Value)} {key : String} {cv : Value}
    (hl : lookupKey ces key = some cv) (tv : Value) (s i : Bool) (p : List String) :
    keyCheck (Value.vmap ces) key tv s i p =
      if isDict tv then
        if isDict cv then validate_config cv tv s i (p ++ [key])
        else .ok (false, [⟨p ++ [key], .typeMismatch, .error⟩])
      else
        .ok (if pyType tv = pyType cv then (true, [])
             else (false, [⟨p ++ [key], .typeMismatch, .error⟩])) := by
  rw [keyCheck_map_eq, hl]

/-- `keyCheck` on a dict configuration when the key is absent. -/
theorem keyCheck_map_none {ces : List (String × Value)} {key : String}
    (hl : lookupKey ces key = none) (tv : Value) (s i : Bool) (p : List String) :
    keyCheck (Value.vmap ces) key tv s i p =
      .ok (if s then (false, [⟨p ++ [key], .missingKey, .error⟩])
           else if !i then (true, [⟨p ++ [key], .missingKey, .warning⟩])
           else (true, [])) := by
  rw [keyCheck_map_eq, hl]

/-- The template loop never raises when the configuration is a dict, provided
the recursive calls it makes do not raise. -/
theorem itemsLoop_ok :
    ∀ (tes : List (String × Value)),
      (∀ k tv tes2, (k, tv) ∈ tes → tv = Value.vmap tes2 →
        ∀ ces2 s2 i2 p2, ∃ r, validate_config (Value.vmap ces2) tv s2 i2 p2 = .ok r) →
      ∀ ces s i p, ∃ r, itemsLoop (Value.vmap ces) tes s i p = .ok r := by
  intro tes
  induction tes with
  | nil =>
      intro _ ces s i p
      exact ⟨(true, []), itemsLoop_nil _ _ _ _⟩
  | cons e rest ih =>
      intro IH ces s i p
      obtain ⟨key, tv⟩ := e
      have hkc : ∃ r1, keyCheck (Value.vmap ces) key tv s i p = .ok r1 := by
        rw [keyCheck_map_eq]
        cases hl : lookupKey ces key with
        | none => exact ⟨_, rfl⟩
        | some cv =>
            cases htd : isDict tv with
            | false => simp [htd]
            | true =>
                cases hcd : isDict cv with
                | false => simp [htd, hcd]
                | true =>
                    obtain ⟨tes2, hteq⟩ := isDict_eq_true htd
                    obtain ⟨ces2, hceq⟩ := isDict_eq_true hcd
                    simp only [htd, hcd, if_true]
                    subst hceq
                    exact IH key tv tes2 (List.mem_cons_self _ _) hteq ces2 s i (p ++ [key])
      obtain ⟨⟨v1, fs1⟩, h1⟩ := hkc
      obtain ⟨⟨v2, fs2⟩, h2⟩ :=
        ih (fun k tv' tes2 hm => IH k tv' tes2 (List.mem_cons_of_mem _ hm)) ces s i p
      exact ⟨(v1 && v2, fs1 ++ fs2), by rw [itemsLoop_cons, h1, h2]⟩

/-- `validate_config` never raises when both roots are dicts. -/
theorem validate_config_ok :
    ∀ (template : Value) (tes ces : List (String × Value)) (s i : Bool) (p : List String),
      template = Value.vmap tes →
      ∃ r, validate_config (Value.vmap ces) template s i p = .ok r := by
  refine value_strong_ind
    (fun template => ∀ tes ces s i p, template = Value.vmap tes →
      ∃ r, validate_config (Value.vmap ces) template s i p = .ok r) ?_
  intro t IH tes ces s i p hEq
  subst hEq
  obtain ⟨⟨v, fs⟩, hloop⟩ := itemsLoop_ok tes
    (fun k tv tes2 hm hteq ces2 s2 i2 p2 => by
      subst hteq
      exact IH tes k _ rfl hm tes2 ces2 s2 i2 p2 rfl)
    ces s i p
  rw [validate_map_eq, hloop]
  cases hflag : (!s && !i) with
  | false => simp [hflag]
  | true => simp [hflag, extraPass]

/-- Invariant statement for the verdict: it is `True` exactly when no finding
of the run has Error severity. -/
def ValidIff (t : Value) : Prop :=
  ∀ ces s i p v fs,
    validate_config (Value.vmap ces) t s i p = .ok (v, fs) →
    (v = true ↔ ∀ f ∈ fs, f.severity ≠ Severity.error)

/-- One key check satisfies the verdict invariant, assuming it for the
template value it may recurse into. -/
theorem keyCheck_valid_iff {key : String} {tv : Value} (IH : ValidIff tv) :
    ∀ ces s i p v fs,
      keyCheck (Value.vmap ces) key tv s i p = .ok (v, fs) →
      (v = true ↔ ∀ f ∈ fs, f.severity ≠ Severity.error) := by
  intro ces s i p v fs h
  rw [keyCheck_map_eq] at h
  cases hl : lookupKey ces key with
  | none =>
      rw [hl] at h
      cases s with
      | true =>
          simp only [if_true, Except.ok.injEq, Prod.mk.injEq] at h
          obtain ⟨rfl, rfl⟩ := h
          simp
      | false =>
          cases i with
          | false =>
              simp only [Bool.not_false, if_false, if_true, Except.ok.injEq,
                Prod.mk.injEq] at h
              obtain ⟨rfl, rfl⟩ := h
              simp
          | true =>
              simp only [Bool.not_true, if_false, Except.ok.injEq, Prod.mk.injEq] at h
              obtain ⟨rfl, rfl⟩ := h
              simp
  | some cv =>
      rw [hl] at h
      cases htd : isDict tv with
      | true =>
          rw [htd] at h
          simp only [if_true] at h
          cases hcd : isDict cv with
          | true =>
              rw [hcd] at h
              simp only [if_true] at h
              obtain ⟨ces2, rfl⟩ := isDict_eq_true hcd
              exact IH ces2 s i (p ++ [key]) v fs h
          | false =>
              rw [hcd] at h
              simp only [Bool.false_eq_true, if_false, Except.ok.injEq,
                Prod.mk.injEq] at h
              obtain ⟨rfl, rfl⟩ := h
              simp
      | false =>
          rw [htd] at h
          simp only [Bool.false_eq_true, if_false] at h
          by_cases hpt : pyType tv = pyType cv
          · rw [if_pos hpt] at h
            simp only [Except.ok.injEq, Prod.mk.injEq] at h
            obtain ⟨rfl, rfl⟩ := h
            simp
          · rw [if_neg hpt] at h
            simp only [Except.ok.injEq, Prod.mk.injEq] at h
            obtain ⟨rfl, rfl⟩ := h
            simp

/-- The template loop satisfies the verdict invariant entrywise. -/
theorem itemsLoop_valid_iff :
    ∀ (tes : List (String × Value)),
      (∀ k tv, (k, tv) ∈ tes → ValidIff tv) →
      ∀ ces s i p v fs,
        itemsLoop (Value.vmap ces) tes s i p = .ok (v, fs) →
        (v = true ↔ ∀ f ∈ fs, f.severity ≠ Severity.error) := by
  intro tes
  induction tes with
  | nil =>
      intro _ ces s i p v fs h
      rw [itemsLoop_nil] at h
      simp only [Except.ok.injEq, Prod.mk.injEq] at h
      obtain ⟨rfl, rfl⟩ := h
      simp
  | cons e rest ih =>
      intro IH ces s i p v fs h
      obtain ⟨key, tv⟩ := e
      rw [itemsLoop_cons] at h
      cases hk : keyCheck (Value.vmap ces) key tv s i p with
      | error e => rw [hk] at h; cases h
      | ok r1 =>
          obtain ⟨v1, fs1⟩ := r1
          rw [hk] at h
          cases hr : itemsLoop (Value.vmap ces) rest s i p with
          | error e => rw [hr] at h; cases h
          | ok r2 =>
              obtain ⟨v2, fs2⟩ := r2
              rw [hr] at h
              simp only [Except.ok.injEq, Prod.mk.injEq] at h
              obtain ⟨rfl, rfl⟩ := h
              have hv1 := keyCheck_valid_iff (IH key tv (List.mem_cons_self _ _))
                ces s i p v1 fs1 hk
              have hv2 := ih (fun k tv' hm => IH k tv' (List.mem_cons_of_mem _ hm))
                ces s i p v2 fs2 hr
              rw [Bool.and_eq_true, hv1, hv2, List.forall_mem_append]

/-- Master form of the verdict invariant, by structural induction on the
template. -/
theorem validate_valid_iff : ∀ t, ValidIff t := by
  refine value_strong_ind ValidIff ?_
  intro t IHt ces s i p v fs h
  cases t with
  | vmap tes =>
      rw [validate_map_eq] at h
      cases hloop : itemsLoop (Value.vmap ces) tes s i p with
      | error e => rw [hloop] at h; cases h
      | ok r =>
          obtain ⟨v0, fs0⟩ := r
          rw [hloop] at h
          have hloopIff := itemsLoop_valid_iff tes
            (fun k tv hm => IHt tes k tv rfl hm) ces s i p v0 fs0 hloop
          cases hflag : (!s && !i) with
          | true =>
              rw [hflag] at h
              simp only [if_true] at h
              cases hex : extraPass (Value.vmap ces) tes p with
              | error e => rw [hex] at h; cases h
              | ok fs2 =>
                  rw [hex] at h
                  simp only [Except.ok.injEq, Prod.mk.injEq] at h
                  obtain ⟨rfl, rfl⟩ := h
                  have hwarn : ∀ f ∈ fs2, f.severity ≠ Severity.error := by
                    intro f hf
                    have := (extraPass_shape hex f hf).2.1
                    rw [this]
                    simp
                  rw [hloopIff, List.forall_mem_append]
                  constructor
                  · exact fun h1 => ⟨h1, hwarn⟩
                  · exact fun h1 => h1.1
          | false =>
              rw [hflag] at h
              simp only [Bool.false_eq_true, if_false] at h
              simp only [Except.ok.injEq, Prod.mk.injEq] at h
              obtain ⟨rfl, rfl⟩ := h
              exact hloopIff
  | vnull => rw [validate_config] at h <;> first | cases h | (intro es hEq; cases hEq)
  | vbool b => rw [validate_config] at h <;> first | cases h | (intro es hEq; cases hEq)
  | vint n => rw [validate_config] at h <;> first | cases h | (intro es hEq; cases hEq)
  | vfloat lit => rw [validate_config] at h <;> first | cases h | (intro es hEq; cases hEq)
  | vstr s2 => rw [validate_config] at h <;> first | cases h | (intro es hEq; cases hEq)
  | vlist xs => rw [validate_config] at h <;> first | cases h | (intro es hEq; cases hEq)

/-- Parametric finding invariant: if every kind of log line the engine can
emit under flags `(s, i)` satisfies `Q`, then every finding of any run with a
dict configuration satisfies `Q`.  The hypotheses mirror the four emit sites
of `validate_config`. -/
theorem findings_pred_master (Q : Finding → Prop) (s i : Bool)
    (hMissStrict : ∀ pk, s = true → Q ⟨pk, .missingKey, .error⟩)
    (hMissWarn : ∀ pk, s = false → i = false → Q ⟨pk, .missingKey, .warning⟩)
    (hMismatch : ∀ pk, Q ⟨pk, .typeMismatch, .error⟩)
    (hExtra : ∀ pk, s = false → i = false → Q ⟨pk, .extraKey, .warning⟩) :
    ∀ t ces p v fs,
      validate_config (Value.vmap ces) t s i p = .ok (v, fs) → ∀ f ∈ fs, Q f := by
  have keyStep : ∀ (key : String) (tv : Value),
      (∀ ces2 p2 v2 fs2, validate_config (Value.vmap ces2) tv s i p2 = .ok (v2, fs2) →
        ∀ f ∈ fs2, Q f) →
      ∀ ces p v fs, keyCheck (Value.vmap ces) key tv s i p = .ok (v, fs) →
        ∀ f ∈ fs, Q f := by
    intro key tv IH ces p v fs h f hf
    rw [keyCheck_map_eq] at h
    cases hl : lookupKey ces key with
    | none =>
        rw [hl] at h
        cases hs : s with
        | true =>
            rw [hs] at h
            simp only [if_true, Except.ok.injEq, Prod.mk.injEq] at h
            obtain ⟨rfl, rfl⟩ := h
            rcases List.mem_singleton.mp hf with rfl
            exact hMissStrict _ hs
        | false =>
            rw [hs] at h
            cases hi : i with
            | false =>
                rw [hi] at h
                simp only [Bool.not_false, if_false, if_true, Except.ok.injEq,
                  Prod.mk.injEq] at h
                obtain ⟨rfl, rfl⟩ := h
                rcases List.mem_singleton.mp hf with rfl
                exact hMissWarn _ hs hi
            | true =>
                rw [hi] at h
                simp only [Bool.not_true, if_false, Except.ok.injEq,
                  Prod.mk.injEq] at h
                obtain ⟨rfl, rfl⟩ := h
                cases hf
    | some cv =>
        rw [hl] at h
        cases htd : isDict tv with
        | true =>
            rw [htd] at h
            simp only [if_true] at h
            cases hcd : isDict cv with
            | true =>
                rw [hcd] at h
                simp only [if_true] at h
                obtain ⟨ces2, rfl⟩ := isDict_eq_true hcd
                exact IH ces2 (p ++ [key]) v fs h f hf
            | false =>
                rw [hcd] at h
                simp only [Bool.false_eq_true, if_false, Except.ok.injEq,
                  Prod.mk.injEq] at h
                obtain ⟨rfl, rfl⟩ := h
                rcases List.mem_singleton.mp hf with rfl
                exact hMismatch _
        | false =>
            rw [htd] at h
            simp only [Bool.false_eq_true, if_false] at h
            by_cases hpt : pyType tv = pyType cv
            · rw [if_pos hpt] at h
              simp only [Except.ok.injEq, Prod.mk.injEq] at h
              obtain ⟨rfl, rfl⟩ := h
              cases hf
            · rw [if_neg hpt] at h
              simp only [Except.ok.injEq, Prod.mk.injEq] at h
              obtain ⟨rfl, rfl⟩ := h
              rcases List.mem_singleton.mp hf with rfl
              exact hMismatch _
  have loopStep : ∀ (tes : List (String × Value)),
      (∀ k tv, (k, tv) ∈ tes →
        ∀ ces2 p2 v2 fs2, validate_config (Value.vmap ces2) tv s i p2 = .ok (v2, fs2) →
          ∀ f ∈ fs2, Q f) →
      ∀ ces p v fs, itemsLoop (Value.vmap ces) tes s i p = .ok (v, fs) →
        ∀ f ∈ fs, Q f := by
    intro tes
    induction tes with
    | nil =>
        intro _ ces p v fs h f hf
        rw [itemsLoop_nil] at h
        simp only [Except.ok.injEq, Prod.mk.injEq] at h
        obtain ⟨rfl, rfl⟩ := h
        cases hf
    | cons e rest ih =>
        intro IH ces p v fs h f hf
        obtain ⟨key, tv⟩ := e
        rw [itemsLoop_cons] at h
        cases hk : keyCheck (Value.vmap ces) key tv s i p with
        | error e2 => rw [hk] at h; cases h
        | ok r1 =>
            obtain ⟨v1, fs1⟩ := r1
            rw [hk] at h
            cases hr : itemsLoop (Value.vmap ces) rest s i p with
            | error e2 => rw [hr] at h; cases h
            | ok r2 =>
                obtain ⟨v2, fs2⟩ := r2
                rw [hr] at h
                simp only [Except.ok.injEq, Prod.mk.injEq] at h
                obtain ⟨rfl, rfl⟩ := h
                rcases List.mem_append.mp hf with h1 | h1
                · exact keyStep key tv
                    (fun ces2 p2 v2' fs2' hh => IH key tv (List.mem_cons_self _ _) ces2 p2 v2' fs2' hh)
                    ces p v1 fs1 hk f h1
                · exact ih (fun k tv' hm => IH k tv' (List.mem_cons_of_mem _ hm))
                    ces p v2 fs2 hr f h1
  refine value_strong_ind
    (fun t => ∀ ces p v fs,
      validate_config (Value.vmap ces) t s i p = .ok (v, fs) → ∀ f ∈ fs, Q f) ?_
  intro t IHt ces p v fs h f hf
  cases t with
  | vmap tes =>
      rw [validate_map_eq] at h
      cases hloop : itemsLoop (Value.vmap ces) tes s i p with
      | error e => rw [hloop] at h; cases h
      | ok r =>
          obtain ⟨v0, fs0⟩ := r
          rw [hloop] at h
          cases hflag : (!s && !i) with
          | true =>
              rw [hflag] at h
              simp only [if_true] at h
              cases hex : extraPass (Value.vmap ces) tes p with
              | error e => rw [hex] at h; cases h
              | ok fs2 =>
                  rw [hex] at h
                  simp only [Except.ok.injEq, Prod.mk.injEq] at h
                  obtain ⟨rfl, rfl⟩ := h
                  have hs : s = false := by
                    cases s with
                    | false => rfl
                    | true => simp at hflag
                  have hi : i = false := by
                    cases i with
                    | false => rfl
                    | true => simp [hs] at hflag
                  rcases List.mem_append.mp hf with h1 | h1
                  · exact loopStep tes (fun k tv hm => IHt tes k tv rfl hm)
                      ces p v0 fs0 hloop f h1
                  · obtain ⟨hk, hsev, k, hpath⟩ := extraPass_shape hex f h1
                    have hf2 : f = ⟨p ++ [k], FKind.extraKey, Severity.warning⟩ := by
                      obtain ⟨fp, fk, fsv⟩ := f
                      simp only [Finding.mk.injEq]
                      exact ⟨hpath, hk, hsev⟩
                    rw [hf2]
                    exact hExtra _ hs hi
          | false =>
              rw [hflag] at h
              simp only [Bool.false_eq_true, if_false] at h
              simp only [Except.ok.injEq, Prod.mk.injEq] at h
              obtain ⟨rfl, rfl⟩ := h
              exact loopStep tes (fun k tv hm => IHt tes k tv rfl hm)
                ces p v0 fs0 hloop f hf
  | vnull => rw [validate_config] at h <;> first | cases h | (intro es hEq; cases hEq)
  | vbool b => rw [validate_config] at h <;> first | cases h | (intro es hEq; cases hEq)
  | vint n => rw [validate_config] at h <;> first | cases h | (intro es hEq; cases hEq)
  | vfloat lit => rw [validate_config] at h <;> first | cases h | (intro es hEq; cases hEq)
  | vstr s2 => rw [validate_config] at h <;> first | cases h | (intro es hEq; cases hEq)
  | vlist xs => rw [validate_config] at h <;> first | cases h | (intro es hEq; cases hEq)

/-- `getItemDyn` always raises on a non-dict container. -/
theorem getItemDyn_nonmap {config : Value} (h : isDict config = false) (k : String) :
    getItemDyn config k = .error .typeError := by
  cases config with
  | vmap es => simp [isDict] at h
  | vnull => rfl
  | vbool b => rfl
  | vint n => rfl
  | vfloat lit => rfl
  | vstr s2 => rfl
  | vlist xs => rfl

/-- On a non-dict configuration, one key check can only emit missing-key
findings (a present key immediately raises on indexing). -/
theorem keyCheck_nonmap_pred (Q : Finding → Prop) (s i : Bool)
    (hMissStrict : ∀ pk, s = true → Q ⟨pk, .missingKey, .error⟩)
    (hMissWarn : ∀ pk, s = false → i = false → Q ⟨pk, .missingKey, .warning⟩)
    {config : Value} (hnm : isDict config = false) :
    ∀ key tv p v fs, keyCheck config key tv s i p = .ok (v, fs) → ∀ f ∈ fs, Q f := by
  intro key tv p v fs h f hf
  rw [keyCheck] at h
  cases hc : containsKeyDyn config key with
  | error e => rw [hc] at h; cases h
  | ok present =>
      rw [hc] at h
      cases present with
      | false =>
          simp only [Bool.not_false, if_true] at h
          cases hs : s with
          | true =>
              rw [hs] at h
              simp only [if_true, Except.ok.injEq, Prod.mk.injEq] at h
              obtain ⟨rfl, rfl⟩ := h
              rcases List.mem_singleton.mp hf with rfl
              exact hMissStrict _ hs
          | false =>
              rw [hs] at h
              cases hi : i with
              | false =>
                  rw [hi] at h
                  simp only [Bool.not_false, if_false, if_true, Except.ok.injEq,
                    Prod.mk.injEq] at h
                  obtain ⟨rfl, rfl⟩ := h
                  rcases List.mem_singleton.mp hf with rfl
                  exact hMissWarn _ hs hi
              | true =>
                  rw [hi] at h
                  simp only [Bool.not_true, if_false, Except.ok.injEq,
                    Prod.mk.injEq] at h
                  obtain ⟨rfl, rfl⟩ := h
                  cases hf
      | true =>
          simp only [Bool.not_true, Bool.false_eq_true, if_false] at h
          rw [getItemDyn_nonmap hnm] at h
          cases h

/-- On a non-dict configuration, the template loop can only emit missing-key
findings. -/
theorem itemsLoop_nonmap_pred (Q : Finding → Prop) (s i : Bool)
    (hMissStrict : ∀ pk, s = true → Q ⟨pk, .missingKey, .error⟩)
    (hMissWarn : ∀ pk, s = false → i = false → Q ⟨pk, .missingKey, .warning⟩)
    {config : Value} (hnm : isDict config = false) :
    ∀ tes p v fs, itemsLoop config tes s i p = .ok (v, fs) → ∀ f ∈ fs, Q f := by
  intro tes
  induction tes with
  | nil =>
      intro p v fs h f hf
      rw [itemsLoop_nil] at h
      simp only [Except.ok.injEq, Prod.mk.injEq] at h
      obtain ⟨rfl, rfl⟩ := h
      cases hf
  | cons e rest ih =>
      intro p v fs h f hf
      obtain ⟨key, tv⟩ := e
      rw [itemsLoop_cons] at h
      cases hk : keyCheck config key tv s i p with
      | error e2 => rw [hk] at h; cases h
      | ok r1 =>
          obtain ⟨v1, fs1⟩ := r1
          rw [hk] at h
          cases hr : itemsLoop config rest s i p with
          | error e2 => rw [hr] at h; cases h
          | ok r2 =>
              obtain ⟨v2, fs2⟩ := r2
              rw [hr] at h
              simp only [Except.ok.injEq, Prod.mk.injEq] at h
              obtain ⟨rfl, rfl⟩ := h
              rcases List.mem_append.mp hf with h1 | h1
              · exact keyCheck_nonmap_pred Q s i hMissStrict hMissWarn hnm
                  key tv p v1 fs1 hk f h1
              · exact ih p v2 fs2 hr f h1

/-- Parametric finding invariant for arbitrary configuration and template
values: every finding of any run that returns normally satisfies `Q`. -/
theorem findings_pred_any (Q : Finding → Prop) (s i : Bool)
    (hMissStrict : ∀ pk, s = true → Q ⟨pk, .missingKey, .error⟩)
    (hMissWarn : ∀ pk, s = false → i = false → Q ⟨pk, .missingKey, .warning⟩)
    (hMismatch : ∀ pk, Q ⟨pk, .typeMismatch, .error⟩)
    (hExtra : ∀ pk, s = false → i = false → Q ⟨pk, .extraKey, .warning⟩) :
    ∀ (config t : Value) (p : List String) (v : Bool) (fs : List Finding),
      validate_config config t s i p = .ok (v, fs) → ∀ f ∈ fs, Q f := by
  intro config t p v fs h f hf
  cases hdc : isDict config with
  | true =>
      obtain ⟨ces, rfl⟩ := isDict_eq_true hdc
      exact findings_pred_master Q s i hMissStrict hMissWarn hMismatch hExtra
        t ces p v fs h f hf
  | false =>
      cases t with
      | vmap tes =>
          rw [validate_map_eq] at h
          cases hloop : itemsLoop config tes s i p with
          | error e => rw [hloop] at h; cases h
          | ok r =>
              obtain ⟨v0, fs0⟩ := r
              rw [hloop] at h
              cases hflag : (!s && !i) with
              | true =>
                  rw [hflag] at h
                  simp only [if_true] at h
                  cases hex : extraPass config tes p with
                  | error e => rw [hex] at h; cases h
                  | ok fs2 =>
                      rw [hex] at h
                      simp only [Except.ok.injEq, Prod.mk.injEq] at h
                      obtain ⟨rfl, rfl⟩ := h
                      have hs : s = false := by
                        cases s with
                        | false => rfl
                        | true => simp at hflag
                      have hi : i = false := by
                        cases i with
                        | false => rfl
                        | true => simp [hs] at hflag
                      rcases List.mem_append.mp hf with h1 | h1
                      · exact itemsLoop_nonmap_pred Q s i hMissStrict hMissWarn hdc
                          tes p v0 fs0 hloop f h1
                      · obtain ⟨hk, hsev, k, hpath⟩ := extraPass_shape hex f h1
                        have hf2 : f = ⟨p ++ [k], FKind.extraKey, Severity.warning⟩ := by
                          obtain ⟨fp, fk, fsv⟩ := f
                          simp only [Finding.mk.injEq]
                          exact ⟨hpath, hk, hsev⟩
                        rw [hf2]
                        exact hExtra _ hs hi
              | false =>
                  rw [hflag] at h
                  simp only [Bool.false_eq_true, if_false, Except.ok.injEq,
                    Prod.mk.injEq] at h
                  obtain ⟨rfl, rfl⟩ := h
                  exact itemsLoop_nonmap_pred Q s i hMissStrict hMissWarn hdc
                    tes p v0 fs0 hloop f hf
      | vnull => rw [validate_config] at h <;> first | cases h | (intro es hEq; cases hEq)
      | vbool b => rw [validate_config] at h <;> first | cases h | (intro es hEq; cases hEq)
      | vint n => rw [validate_config] at h <;> first | cases h | (intro es hEq; cases hEq)
      | vfloat lit => rw [validate_config] at h <;> first | cases h | (intro es hEq; cases hEq)
      | vstr s2 => rw [validate_config] at h <;> first | cases h | (intro es hEq; cases hEq)
      | vlist xs => rw [validate_config] at h <;> first | cases h | (intro es hEq; cases hEq)

/-- One key check under `strict = true` does not depend on `ignore_missing`,
assuming the same for the recursive calls. -/
theorem keyCheck_strict_ig (key : String) (tv : Value)
    (IH : ∀ config p2, validate_config config tv true false p2
        = validate_config config tv true true p2) :
    ∀ config p, keyCheck config key tv true false p = keyCheck config key tv true true p := by
  intro config p
  simp only [keyCheck]
  cases hc : containsKeyDyn config key with
  | error e => rfl
  | ok present =>
      cases present with
      | false => rfl
      | true =>
          simp only []
          cases hg : getItemDyn config key with
          | error e => rfl
          | ok cv =>
              cases htd : isDict tv with
              | false => rfl
              | true =>
                  cases hcd : isDict cv with
                  | false => simp [htd, hcd]
                  | true => simp [htd, hcd, IH cv (p ++ [key])]

/-- The template loop under `strict = true` does not depend on
`ignore_missing`. -/
theorem itemsLoop_strict_ig :
    ∀ (tes : List (String × Value)),
      (∀ k tv, (k, tv) ∈ tes →
        ∀ config p2, validate_config config tv true false p2
          = validate_config config tv true true p2) →
      ∀ config p, itemsLoop config tes true false p = itemsLoop config tes true true p := by
  intro tes
  induction tes with
  | nil => intro _ config p; rw [itemsLoop_nil, itemsLoop_nil]
  | cons e rest ih =>
      intro IH config p
      obtain ⟨key, tv⟩ := e
      rw [itemsLoop_cons, itemsLoop_cons,
        keyCheck_strict_ig key tv (IH key tv (List.mem_cons_self _ _)) config p,
        ih (fun k tv' hm => IH k tv' (List.mem_cons_of_mem _ hm)) config p]

/-- Master form: under `strict = true` the whole run is independent of
`ignore_missing`. -/
theorem validate_strict_ig_master :
    ∀ t config p, validate_config config t true false p = validate_config config t true true p := by
  refine value_strong_ind
    (fun t => ∀ config p, validate_config config t true false p
      = validate_config config t true true p) ?_
  intro t IHt config p
  cases t with
  | vmap tes =>
      rw [validate_map_eq, validate_map_eq,
        itemsLoop_strict_ig tes (fun k tv hm => IHt tes k tv rfl hm) config p]
      cases hr : itemsLoop config tes true true p with
      | error e => rfl
      | ok r => simp
  | vnull => rw [validate_config, validate_config] <;> first | rfl | (intro es hEq; cases hEq)
  | vbool b => rw [validate_config, validate_config] <;> first | rfl | (intro es hEq; cases hEq)
  | vint n => rw [validate_config, validate_config] <;> first | rfl | (intro es hEq; cases hEq)
  | vfloat lit => rw [validate_config, validate_config] <;> first | rfl | (intro es hEq; cases hEq)
  | vstr s2 => rw [validate_config, validate_config] <;> first | rfl | (intro es hEq; cases hEq)
  | vlist xs => rw [validate_config, validate_config] <;> first | rfl | (intro es hEq; cases hEq)

/-- Error counts add up over concatenated reports. -/
theorem errCount_append (a b : List Finding) :
    errCount (a ++ b) = errCount a + errCount b := by
  simp [errCount, List.filter_append]

/-- MissingKey-warning counts add up over concatenated reports. -/
theorem warnMissingCount_append (a b : List Finding) :
    warnMissingCount (a ++ b) = warnMissingCount a + warnMissingCount b := by
  simp [warnMissingCount, List.filter_append]

/-- A report of warnings only contains no Error-severity finding. -/
theorem errCount_eq_zero {fs : List Finding}
    (h : ∀ f ∈ fs, f.severity = Severity.warning) : errCount fs = 0 := by
  rw [errCount, List.length_eq_zero, List.filter_eq_nil_iff]
  intro f hf
  simp [h f hf]

/-- A report of ExtraKey findings only contains no MissingKey warning. -/
theorem warnMissingCount_extra_zero {fs : List Finding}
    (h : ∀ f ∈ fs, f.kind = FKind.extraKey) : warnMissingCount fs = 0 := by
  rw [warnMissingCount, List.length_eq_zero, List.filter_eq_nil_iff]
  intro f hf
  simp [h f hf]

/-- Monotonicity statement compared between a non-strict and a strict run. -/
def StrictMono2 (t : Value) : Prop :=
  ∀ ces i p v0 fs0 v1 fs1,
    validate_config (Value.vmap ces) t false i p = .ok (v0, fs0) →
    validate_config (Value.vmap ces) t true i p = .ok (v1, fs1) →
    errCount fs0 ≤ errCount fs1 ∧ warnMissingCount fs1 ≤ warnMissingCount fs0

/-- One key check compared between a non-strict and a strict run. -/
theorem keyCheck_strict_mono (key : String) (tv : Value) (IH : StrictMono2 tv) :
    ∀ ces i p v0 fs0 v1 fs1,
      keyCheck (Value.vmap ces) key tv false i p = .ok (v0, fs0) →
      keyCheck (Value.vmap ces) key tv true i p = .ok (v1, fs1) →
      errCount fs0 ≤ errCount fs1 ∧ warnMissingCount fs1 ≤ warnMissingCount fs0 := by
  intro ces i p v0 fs0 v1 fs1 h0 h1
  rw [keyCheck_map_eq] at h0 h1
  cases hl : lookupKey ces key with
  | none =>
      rw [hl] at h0 h1
      simp only [if_true, Bool.false_eq_true, if_false, Except.ok.injEq,
        Prod.mk.injEq] at h0 h1
      obtain ⟨rfl, rfl⟩ := h1
      cases hi : i with
      | false =>
          rw [hi] at h0
          simp only [Bool.not_false, if_true, Prod.mk.injEq] at h0
          obtain ⟨rfl, rfl⟩ := h0
          constructor <;> simp [errCount, warnMissingCount]
      | true =>
          rw [hi] at h0
          simp only [Bool.not_true, Bool.false_eq_true, if_false, Prod.mk.injEq] at h0
          obtain ⟨rfl, rfl⟩ := h0
          constructor <;> simp [errCount, warnMissingCount]
  | some cv =>
      rw [hl] at h0 h1
      cases htd : isDict tv with
      | true =>
          rw [htd] at h0 h1
          simp only [if_true] at h0 h1
          cases hcd : isDict cv with
          | true =>
              rw [hcd] at h0 h1
              simp only [if_true] at h0 h1
              obtain ⟨ces2, rfl⟩ := isDict_eq_true hcd
              exact IH ces2 i (p ++ [key]) v0 fs0 v1 fs1 h0 h1
          | false =>
              rw [hcd] at h0 h1
              simp only [Bool.false_eq_true, if_false, Except.ok.injEq,
                Prod.mk.injEq] at h0 h1
              obtain ⟨rfl, rfl⟩ := h0
              obtain ⟨rfl, rfl⟩ := h1
              simp
      | false =>
          rw [htd] at h0 h1
          simp only [Bool.false_eq_true, if_false] at h0 h1
          by_cases hpt : pyType tv = pyType cv
          · rw [if_pos hpt] at h0 h1
            simp only [Except.ok.injEq, Prod.mk.injEq] at h0 h1
            obtain ⟨rfl, rfl⟩ := h0
            obtain ⟨rfl, rfl⟩ := h1
            simp
          · rw [if_neg hpt] at h0 h1
            simp only [Except.ok.injEq, Prod.mk.injEq] at h0 h1
            obtain ⟨rfl, rfl⟩ := h0
            obtain ⟨rfl, rfl⟩ := h1
            simp

/-- The template loop compared between a non-strict and a strict run. -/
theorem itemsLoop_strict_mono :
    ∀ (tes : List (String × Value)),
      (∀ k tv, (k, tv) ∈ tes → StrictMono2 tv) →
      ∀ ces i p v0 fs0 v1 fs1,
        itemsLoop (Value.vmap ces) tes false i p = .ok (v0, fs0) →
        itemsLoop (Value.vmap ces) tes true i p = .ok (v1, fs1) →
        errCount fs0 ≤ errCount fs1 ∧ warnMissingCount fs1 ≤ warnMissingCount fs0 := by
  intro tes
  induction tes with
  | nil =>
      intro _ ces i p v0 fs0 v1 fs1 h0 h1
      rw [itemsLoop_nil] at h0 h1
      simp only [Except.ok.injEq, Prod.mk.injEq] at h0 h1
      obtain ⟨rfl, rfl⟩ := h0
      obtain ⟨rfl, rfl⟩ := h1
      simp
  | cons e rest ih =>
      intro IH ces i p v0 fs0 v1 fs1 h0 h1
      obtain ⟨key, tv⟩ := e
      rw [itemsLoop_cons] at h0 h1
      cases hk0 : keyCheck (Value.vmap ces) key tv false i p with
      | error e2 => rw [hk0] at h0; cases h0
      | ok r0 =>
          obtain ⟨a0, g0⟩ := r0
          rw [hk0] at h0
          cases hr0 : itemsLoop (Value.vmap ces) rest false i p with
          | error e2 => rw [hr0] at h0; cases h0
          | ok q0 =>
              obtain ⟨b0, j0⟩ := q0
              rw [hr0] at h0
              simp only [Except.ok.injEq, Prod.mk.injEq] at h0
              obtain ⟨rfl, rfl⟩ := h0
              cases hk1 : keyCheck (Value.vmap ces) key tv true i p with
              | error e2 => rw [hk1] at h1; cases h1
              | ok r1 =>
                  obtain ⟨a1, g1⟩ := r1
                  rw [hk1] at h1
                  cases hr1 : itemsLoop (Value.vmap ces) rest true i p with
                  | error e2 => rw [hr1] at h1; cases h1
                  | ok q1 =>
                      obtain ⟨b1, j1⟩ := q1
                      rw [hr1] at h1
                      simp only [Except.ok.injEq, Prod.mk.injEq] at h1
                      obtain ⟨rfl, rfl⟩ := h1
                      have hHead := keyCheck_strict_mono key tv
                        (IH key tv (List.mem_cons_self _ _)) ces i p a0 g0 a1 g1 hk0 hk1
                      have hRest := ih (fun k tv' hm => IH k tv' (List.mem_cons_of_mem _ hm))
                        ces i p b0 j0 b1 j1 hr0 hr1
                      rw [errCount_append, errCount_append,
                        warnMissingCount_append, warnMissingCount_append]
                      exact ⟨Nat.add_le_add hHead.1 hRest.1, Nat.add_le_add hHead.2 hRest.2⟩

/-- Master form of strict-mode monotonicity. -/
theorem validate_strict_mono_master : ∀ t, StrictMono2 t := by
  refine value_strong_ind StrictMono2 ?_
  intro t IHt ces i p v0 fs0 v1 fs1 h0 h1
  cases t with
  | vmap tes =>
      rw [validate_map_eq] at h0 h1
      cases hl0 : itemsLoop (Value.vmap ces) tes false i p with
      | error e => rw [hl0] at h0; cases h0
      | ok r0 =>
          obtain ⟨w0, l0⟩ := r0
          rw [hl0] at h0
          cases hl1 : itemsLoop (Value.vmap ces) tes true i p with
          | error e => rw [hl1] at h1; cases h1
          | ok r1 =>
              obtain ⟨w1, l1⟩ := r1
              rw [hl1] at h1
              simp only [Bool.not_true, Bool.false_and, Bool.false_eq_true, if_false,
                Except.ok.injEq, Prod.mk.injEq] at h1
              obtain ⟨rfl, rfl⟩ := h1
              have hLoop := itemsLoop_strict_mono tes (fun k tv hm => IHt tes k tv rfl hm)
                ces i p w0 l0 w1 l1 hl0 hl1
              cases hflag : (!false && !i) with
              | true =>
                  rw [hflag] at h0
                  simp only [if_true] at h0
                  cases hex : extraPass (Value.vmap ces) tes p with
                  | error e => rw [hex] at h0; cases h0
                  | ok fs2 =>
                      rw [hex] at h0
                      simp only [Except.ok.injEq, Prod.mk.injEq] at h0
                      obtain ⟨rfl, rfl⟩ := h0
                      have hz1 : errCount fs2 = 0 :=
                        errCount_eq_zero (fun f hf => (extraPass_shape hex f hf).2.1)
                      have hz2 : warnMissingCount fs2 = 0 :=
                        warnMissingCount_extra_zero (fun f hf => (extraPass_shape hex f hf).1)
                      obtain ⟨hA, hB⟩ := hLoop
                      rw [errCount_append, warnMissingCount_append, hz1, hz2]
                      exact ⟨by omega, by omega⟩
              | false =>
                  rw [hflag] at h0
                  simp only [Bool.false_eq_true, if_false, Except.ok.injEq,
                    Prod.mk.injEq] at h0
                  obtain ⟨rfl, rfl⟩ := h0
                  exact hLoop
  | vnull => rw [validate_config] at h0 <;> first | cases h0 | (intro es hEq; cases hEq)
  | vbool b => rw [validate_config] at h0 <;> first | cases h0 | (intro es hEq; cases hEq)
  | vint n => rw [validate_config] at h0 <;> first | cases h0 | (intro es hEq; cases hEq)
  | vfloat lit => rw [validate_config] at h0 <;> first | cases h0 | (intro es hEq; cases hEq)
  | vstr s2 => rw [validate_config] at h0 <;> first | cases h0 | (intro es hEq; cases hEq)
  | vlist xs => rw [validate_config] at h0 <;> first | cases h0 | (intro es hEq; cases hEq)

/-- Path-shape statement: every finding of a run at `p` lies strictly below
`p` (its path is `p` followed by at least one key). -/
def PathsExtend (t : Value) : Prop :=
  ∀ ces s i p v fs,
    validate_config (Value.vmap ces) t s i p = .ok (v, fs) →
    ∀ f ∈ fs, ∃ k rest, f.path = p ++ k :: rest

/-- One key check only yields findings at or below its own key, assuming the
path-shape property of the template value it may recurse into. -/
theorem keyCheck_paths_of (key : String) (tv : Value) (IH : PathsExtend tv) :
    ∀ ces s i p v fs, keyCheck (Value.vmap ces) key tv s i p = .ok (v, fs) →
      ∀ f ∈ fs, ∃ rest, f.path = p ++ key :: rest := by
  intro ces s i p v fs h f hf
  rw [keyCheck_map_eq] at h
  cases hl : lookupKey ces key with
  | none =>
      rw [hl] at h
      cases hs : s with
      | true =>
          rw [hs] at h
          simp only [if_true, Except.ok.injEq, Prod.mk.injEq] at h
          obtain ⟨rfl, rfl⟩ := h
          rcases List.mem_singleton.mp hf with rfl
          exact ⟨[], rfl⟩
      | false =>
          rw [hs] at h
          cases hi : i with
          | false =>
              rw [hi] at h
              simp only [Bool.not_false, if_false, if_true, Except.ok.injEq,
                Prod.mk.injEq] at h
              obtain ⟨rfl, rfl⟩ := h
              rcases List.mem_singleton.mp hf with rfl
              exact ⟨[], rfl⟩
          | true =>
              rw [hi] at h
              simp only [Bool.not_true, if_false, Except.ok.injEq, Prod.mk.injEq] at h
              obtain ⟨rfl, rfl⟩ := h
              cases hf
  | some cv =>
      rw [hl] at h
      cases htd : isDict tv with
      | true =>
          rw [htd] at h
          simp only [if_true] at h
          cases hcd : isDict cv with
          | true =>
              rw [hcd] at h
              simp only [if_true] at h
              obtain ⟨ces2, rfl⟩ := isDict_eq_true hcd
              obtain ⟨k2, rest2, hpath⟩ := IH ces2 s i (p ++ [key]) v fs h f hf
              refine ⟨k2 :: rest2, ?_⟩
              rw [hpath, List.append_assoc]
              rfl
          | false =>
              rw [hcd] at h
              simp only [Bool.false_eq_true, if_false, Except.ok.injEq,
                Prod.mk.injEq] at h
              obtain ⟨rfl, rfl⟩ := h
              rcases List.mem_singleton.mp hf with rfl
              exact ⟨[], rfl⟩
      | false =>
          rw [htd] at h
          simp only [Bool.false_eq_true, if_false] at h
          by_cases hpt : pyType tv = pyType cv
          · rw [if_pos hpt] at h
            simp only [Except.ok.injEq, Prod.mk.injEq] at h
            obtain ⟨rfl, rfl⟩ := h
            cases hf
          · rw [if_neg hpt] at h
            simp only [Except.ok.injEq, Prod.mk.injEq] at h
            obtain ⟨rfl, rfl⟩ := h
            rcases List.mem_singleton.mp hf with rfl
            exact ⟨[], rfl⟩
/-- Master form of the path-shape property. -/
theorem validate_paths_extend : ∀ t, PathsExtend t := by
  have keyStep := keyCheck_paths_of
  have loopStep : ∀ (tes : List (String × Value)),
      (∀ k tv, (k, tv) ∈ tes → PathsExtend tv) →
      ∀ ces s i p v fs, itemsLoop (Value.vmap ces) tes s i p = .ok (v, fs) →
        ∀ f ∈ fs, ∃ k rest, f.path = p ++ k :: rest := by
    intro tes
    induction tes with
    | nil =>
        intro _ ces s i p v fs h f hf
        rw [itemsLoop_nil] at h
        simp only [Except.ok.injEq, Prod.mk.injEq] at h
        obtain ⟨rfl, rfl⟩ := h
        cases hf
    | cons e rest ih =>
        intro IH ces s i p v fs h f hf
        obtain ⟨key, tv⟩ := e
        rw [itemsLoop_cons] at h
        cases hk : keyCheck (Value.vmap ces) key tv s i p with
        | error e2 => rw [hk] at h; cases h
        | ok r1 =>
            obtain ⟨v1, fs1⟩ := r1
            rw [hk] at h
            cases hr : itemsLoop (Value.vmap ces) rest s i p with
            | error e2 => rw [hr] at h; cases h
            | ok r2 =>
                obtain ⟨v2, fs2⟩ := r2
                rw [hr] at h
                simp only [Except.ok.injEq, Prod.mk.injEq] at h
                obtain ⟨rfl, rfl⟩ := h
                rcases List.mem_append.mp hf with h1 | h1
                · obtain ⟨rest2, hpath⟩ := keyStep key tv
                    (IH key tv (List.mem_cons_self _ _)) ces s i p v1 fs1 hk f h1
                  exact ⟨key, rest2, hpath⟩
                · exact ih (fun k tv' hm => IH k tv' (List.mem_cons_of_mem _ hm))
                    ces s i p v2 fs2 hr f h1
  refine value_strong_ind PathsExtend ?_
  intro t IHt ces s i p v fs h f hf
  cases t with
  | vmap tes =>
      rw [validate_map_eq] at h
      cases hloop : itemsLoop (Value.vmap ces) tes s i p with
      | error e => rw [hloop] at h; cases h
      | ok r =>
          obtain ⟨v0, fs0⟩ := r
          rw [hloop] at h
          cases hflag : (!s && !i) with
          | true =>
              rw [hflag] at h
              simp only [if_true] at h
              cases hex : extraPass (Value.vmap ces) tes p with
              | error e => rw [hex] at h; cases h
              | ok fs2 =>
                  rw [hex] at h
                  simp only [Except.ok.injEq, Prod.mk.injEq] at h
                  obtain ⟨rfl, rfl⟩ := h
                  rcases List.mem_append.mp hf with h1 | h1
                  · exact loopStep tes (fun k tv hm => IHt tes k tv rfl hm)
                      ces s i p v0 fs0 hloop f h1
                  · obtain ⟨_, _, k, hpath⟩ := extraPass_shape hex f h1
                    exact ⟨k, [], hpath⟩
          | false =>
              rw [hflag] at h
              simp only [Bool.false_eq_true, if_false] at h
              simp only [Except.ok.injEq, Prod.mk.injEq] at h
              obtain ⟨rfl, rfl⟩ := h
              exact loopStep tes (fun k tv hm => IHt tes k tv rfl hm)
                ces s i p v0 fs0 hloop f hf
  | vnull => rw [validate_config] at h <;> first | cases h | (intro es hEq; cases hEq)
  | vbool b => rw [validate_config] at h <;> first | cases h | (intro es hEq; cases hEq)
  | vint n => rw [validate_config] at h <;> first | cases h | (intro es hEq; cases hEq)
  | vfloat lit => rw [validate_config] at h <;> first | cases h | (intro es hEq; cases hEq)
  | vstr s2 => rw [validate_config] at h <;> first | cases h | (intro es hEq; cases hEq)
  | vlist xs => rw [validate_config] at h <;> first | cases h | (intro es hEq; cases hEq)

/-- Findings of the template loop sit under one of the iterated template
keys. -/
theorem itemsLoop_heads :
    ∀ (tes : List (String × Value)) (ces : List (String × Value)) (s i : Bool)
      (p : List String) (v : Bool) (fs : List Finding),
      itemsLoop (Value.vmap ces) tes s i p = .ok (v, fs) →
      ∀ f ∈ fs, ∃ k rest, f.path = p ++ k :: rest ∧ containsK tes k = true := by
  intro tes
  induction tes with
  | nil =>
      intro ces s i p v fs h f hf
      rw [itemsLoop_nil] at h
      simp only [Except.ok.injEq, Prod.mk.injEq] at h
      obtain ⟨rfl, rfl⟩ := h
      cases hf
  | cons e rest ih =>
      intro ces s i p v fs h f hf
      obtain ⟨key, tv⟩ := e
      rw [itemsLoop_cons] at h
      cases hk : keyCheck (Value.vmap ces) key tv s i p with
      | error e2 => rw [hk] at h; cases h
      | ok r1 =>
          obtain ⟨v1, fs1⟩ := r1
          rw [hk] at h
          cases hr : itemsLoop (Value.vmap ces) rest s i p with
          | error e2 => rw [hr] at h; cases h
          | ok r2 =>
              obtain ⟨v2, fs2⟩ := r2
              rw [hr] at h
              simp only [Except.ok.injEq, Prod.mk.injEq] at h
              obtain ⟨rfl, rfl⟩ := h
              rcases List.mem_append.mp hf with h1 | h1
              · obtain ⟨rest2, hpath⟩ := keyCheck_paths_of key tv
                  (validate_paths_extend tv) ces s i p v1 fs1 hk f h1
                exact ⟨key, rest2, hpath, by simp [containsK]⟩
              · obtain ⟨k, r2, hp, hc⟩ := ih ces s i p v2 fs2 hr f h1
                refine ⟨k, r2, hp, ?_⟩
                rw [containsK] at hc ⊢
                simp only [List.any_cons]
                rw [hc]
                simp

/-- A level of the two trees reached by the recursive walk: starting from the
roots `(ces, tes)`, repeatedly step through a template key holding a dict
whose configuration counterpart is also a dict, accumulating the key path. -/
inductive Reaches : List (String × Value) → List (String × Value) → List String →
    List (String × Value) → List (String × Value) → Prop where
  | here (ces tes : List (String × Value)) : Reaches ces tes [] ces tes
  | deeper {ces tes : List (String × Value)} {q : List String}
      {ces1 tes1 : List (String × Value)} (k : String)
      {tes2 ces2 : List (String × Value)}
      (hmem : (k, Value.vmap tes2) ∈ tes1)
      (hlook : lookupKey ces1 k = some (Value.vmap ces2))
      (hr : Reaches ces tes q ces1 tes1) :
      Reaches ces tes (q ++ [k]) ces2 tes2

/-- The findings of one nested recursive call are contained in those of the
loop that performs it, and its failure forces the loop verdict `False`. -/
theorem itemsLoop_sub_run :
    ∀ (tes : List (String × Value)) {k : String} {tes2 ces2 : List (String × Value)},
      (k, Value.vmap tes2) ∈ tes →
      ∀ (ces : List (String × Value)), lookupKey ces k = some (Value.vmap ces2) →
      ∀ s i p v fs v2 fs2,
        itemsLoop (Value.vmap ces) tes s i p = .ok (v, fs) →
        validate_config (Value.vmap ces2) (Value.vmap tes2) s i (p ++ [k]) = .ok (v2, fs2) →
        (∀ f ∈ fs2, f ∈ fs) ∧ (v2 = false → v = false) := by
  intro tes
  induction tes with
  | nil => intro k tes2 ces2 hmem; cases hmem
  | cons e rest ih =>
      intro k tes2 ces2 hmem ces hlook s i p v fs v2 fs2 h hsub
      obtain ⟨key, tv⟩ := e
      rw [itemsLoop_cons] at h
      cases hk : keyCheck (Value.vmap ces) key tv s i p with
      | error e2 => rw [hk] at h; cases h
      | ok r1 =>
          obtain ⟨v1, fs1⟩ := r1
          rw [hk] at h
          cases hr : itemsLoop (Value.vmap ces) rest s i p with
          | error e2 => rw [hr] at h; cases h
          | ok r2 =>
              obtain ⟨w2, g2⟩ := r2
              rw [hr] at h
              simp only [Except.ok.injEq, Prod.mk.injEq] at h
              obtain ⟨rfl, rfl⟩ := h
              rcases List.mem_cons.mp hmem with hHead | hTail
              · obtain ⟨hkeq, hteq⟩ := Prod.mk.injEq .. |>.mp hHead
                subst hkeq
                subst hteq
                rw [keyCheck_map_eq, hlook] at hk
                simp only [isDict, if_true] at hk
                rw [hsub] at hk
                simp only [Except.ok.injEq, Prod.mk.injEq] at hk
                obtain ⟨rfl, rfl⟩ := hk
                constructor
                · intro f hf
                  exact List.mem_append_left _ hf
                · intro hv
                  rw [hv]
                  rfl
              · have hres := ih hTail ces hlook s i p w2 g2 v2 fs2 hr hsub
                constructor
                · intro f hf
                  exact List.mem_append_right _ (hres.1 f hf)
                · intro hv
                  rw [hres.2 hv]
                  simp

/-- One-level containment: the run of a nested pair of dicts contributes all
its findings to the parent run, and its failure fails the parent. -/
theorem validate_sub_run {ces tes : List (String × Value)} {k : String}
    {tes2 ces2 : List (String × Value)} (hmem : (k, Value.vmap tes2) ∈ tes)
    (hlook : lookupKey ces k = some (Value.vmap ces2)) :
    ∀ s i p v fs v2 fs2,
      validate_config (Value.vmap ces) (Value.vmap tes) s i p = .ok (v, fs) →
      validate_config (Value.vmap ces2) (Value.vmap tes2) s i (p ++ [k]) = .ok (v2, fs2) →
      (∀ f ∈ fs2, f ∈ fs) ∧ (v2 = false → v = false) := by
  intro s i p v fs v2 fs2 h hsub
  rw [validate_map_eq] at h
  cases hloop : itemsLoop (Value.vmap ces) tes s i p with
  | error e => rw [hloop] at h; cases h
  | ok r =>
      obtain ⟨v0, fs0⟩ := r
      rw [hloop] at h
      have hres := itemsLoop_sub_run tes hmem ces hlook s i p v0 fs0 v2 fs2 hloop hsub
      cases hflag : (!s && !i) with
      | true =>
          rw [hflag] at h
          simp only [if_true] at h
          cases hex : extraPass (Value.vmap ces) tes p with
          | error e => rw [hex] at h; cases h
          | ok g2 =>
              rw [hex] at h
              simp only [Except.ok.injEq, Prod.mk.injEq] at h
              obtain ⟨rfl, rfl⟩ := h
              exact ⟨fun f hf => List.mem_append_left _ (hres.1 f hf), hres.2⟩
      | false =>
          rw [hflag] at h
          simp only [Bool.false_eq_true, if_false, Except.ok.injEq, Prod.mk.injEq] at h
          obtain ⟨rfl, rfl⟩ := h
          exact hres

/-- Chained containment along a reached level: the findings of the run at any
reached level are contained in the root run's findings, and its failure
forces the root verdict `False`. -/
theorem reaches_sub_run {ces tes : List (String × Value)} {q : List String}
    {ces1 tes1 : List (String × Value)} (hreach : Reaches ces tes q ces1 tes1) :
    ∀ s i p v fs v1 fs1,
      validate_config (Value.vmap ces) (Value.vmap tes) s i p = .ok (v, fs) →
      validate_config (Value.vmap ces1) (Value.vmap tes1) s i (p ++ q) = .ok (v1, fs1) →
      (∀ f ∈ fs1, f ∈ fs) ∧ (v1 = false → v = false) := by
  induction hreach with
  | here =>
      intro s i p v fs v1 fs1 h1 h2
      rw [List.append_nil, h1] at h2
      simp only [Except.ok.injEq, Prod.mk.injEq] at h2
      obtain ⟨rfl, rfl⟩ := h2
      exact ⟨fun f hf => hf, fun hv => hv⟩
  | deeper k hmem hlook hr ih =>
      intro s i p v fs v1 fs1 h1 h2
      rw [← List.append_assoc] at h2
      rename_i ces1' tes1' tes2 ces2
      obtain ⟨⟨vm, fsm⟩, hm⟩ := validate_config_ok (Value.vmap tes1') tes1' ces1' s i (p ++ _) rfl
      have hA := ih s i p v fs vm fsm h1 hm
      have hB := validate_sub_run hmem hlook s i _ vm fsm v1 fs1 hm h2
      exact ⟨fun f hf => hA.1 f (hB.1 f hf), fun hv => hA.2 (hB.2 hv)⟩

/-- In strict mode, a template key missing from the dict configuration at the
iterated level yields an Error MissingKey finding and fails the loop. -/
theorem itemsLoop_missing :
    ∀ (tes : List (String × Value)) {k0 : String} {tv0 : Value}, (k0, tv0) ∈ tes →
      ∀ (ces : List (String × Value)), containsK ces k0 = false →
      ∀ i p v fs, itemsLoop (Value.vmap ces) tes true i p = .ok (v, fs) →
        Finding.mk (p ++ [k0]) FKind.missingKey Severity.error ∈ fs ∧ v = false := by
  intro tes
  induction tes with
  | nil => intro k0 tv0 hmem; cases hmem
  | cons e rest ih =>
      intro k0 tv0 hmem ces habs i p v fs h
      obtain ⟨key, tv⟩ := e
      rw [itemsLoop_cons] at h
      cases hk : keyCheck (Value.vmap ces) key tv true i p with
      | error e2 => rw [hk] at h; cases h
      | ok r1 =>
          obtain ⟨v1, fs1⟩ := r1
          rw [hk] at h
          cases hr : itemsLoop (Value.vmap ces) rest true i p with
          | error e2 => rw [hr] at h; cases h
          | ok r2 =>
              obtain ⟨v2, fs2⟩ := r2
              rw [hr] at h
              simp only [Except.ok.injEq, Prod.mk.injEq] at h
              obtain ⟨rfl, rfl⟩ := h
              rcases List.mem_cons.mp hmem with hHead | hTail
              · obtain ⟨hkeq, _⟩ := Prod.mk.injEq .. |>.mp hHead
                subst hkeq
                have hnone : lookupKey ces k0 = none := by
                  cases hl : lookupKey ces k0 with
                  | none => rfl
                  | some cv =>
                      have := lookupKey_isSome ces k0
                      rw [hl, habs] at this
                      cases this
                rw [keyCheck_map_eq, hnone] at hk
                simp only [if_true, Except.ok.injEq, Prod.mk.injEq] at hk
                obtain ⟨rfl, rfl⟩ := hk
                exact ⟨List.mem_append_left _ (List.mem_singleton.mpr rfl), rfl⟩
              · obtain ⟨hmem2, hv2⟩ := ih hTail ces habs i p v2 fs2 hr
                refine ⟨List.mem_append_right _ hmem2, ?_⟩
                rw [hv2]
                simp

/-- In strict mode, a template key missing from the dict configuration yields
an Error MissingKey finding of the run at this level and fails its verdict,
whatever `ignore_missing` is. -/
theorem missing_at_level {ces tes : List (String × Value)} {k0 : String} {tv0 : Value}
    (hmem : (k0, tv0) ∈ tes) (habs : containsK ces k0 = false) :
    ∀ i p v fs,
      validate_config (Value.vmap ces) (Value.vmap tes) true i p = .ok (v, fs) →
      Finding.mk (p ++ [k0]) FKind.missingKey Severity.error ∈ fs ∧ v = false := by
  intro i p v fs h
  rw [validate_map_eq] at h
  cases hloop : itemsLoop (Value.vmap ces) tes true i p with
  | error e => rw [hloop] at h; cases h
  | ok r =>
      obtain ⟨v0, fs0⟩ := r
      rw [hloop] at h
      simp only [Bool.not_true, Bool.false_and, Bool.false_eq_true, if_false,
        Except.ok.injEq, Prod.mk.injEq] at h
      obtain ⟨rfl, rfl⟩ := h
      exact itemsLoop_missing tes hmem ces habs i p v0 fs0 hloop

/-- With both policy flags clear, a configuration key absent from the
template yields an ExtraKey warning of the run at this level. -/
theorem extra_at_level {ces tes : List (String × Value)} {k0 : String} {v0 : Value}
    (hmem : (k0, v0) ∈ ces) (habs : containsK tes k0 = false) :
    ∀ p v fs,
      validate_config (Value.vmap ces) (Value.vmap tes) false false p = .ok (v, fs) →
      Finding.mk (p ++ [k0]) FKind.extraKey Severity.warning ∈ fs := by
  intro p v fs h
  rw [validate_map_eq] at h
  cases hloop : itemsLoop (Value.vmap ces) tes false false p with
  | error e => rw [hloop] at h; cases h
  | ok r =>
      obtain ⟨w0, fs0⟩ := r
      rw [hloop] at h
      simp only [Bool.not_false, Bool.and_self, if_true, extraPass,
        Except.ok.injEq, Prod.mk.injEq] at h
      obtain ⟨rfl, rfl⟩ := h
      refine List.mem_append_right _ ?_
      refine List.mem_filterMap.mpr ⟨(k0, v0), hmem, ?_⟩
      rw [if_neg]
      rw [habs]
      simp

/-- `WFentries` gives well-formedness of every stored value. -/
theorem WFentries_mem :
    ∀ {es : List (String × Value)} {k : String} {tv : Value},
      WFentries es = true → (k, tv) ∈ es → WF tv = true := by
  intro es
  induction es with
  | nil => intro k tv _ hmem; cases hmem
  | cons e rest ih =>
      intro k tv hwf hmem
      rw [WFentries, Bool.and_eq_true] at hwf
      rcases List.mem_cons.mp hmem with hHead | hTail
      · obtain ⟨_, hteq⟩ := Prod.mk.injEq .. |>.mp hHead
        rw [hteq]
        exact hwf.1
      · exact ih hwf.2 hTail

/-- The extra-key pass is empty when every configuration key is a template
key. -/
theorem extraKeysMap_covered {ces tes : List (String × Value)} {p : List String}
    (h : ∀ e ∈ ces, containsK tes e.1 = true) : extraKeysMap ces tes p = [] := by
  rw [extraKeysMap, List.filterMap_eq_nil_iff]
  intro e he
  rw [if_pos (h e he)]

/-- Template loop of a dict against itself: with pairwise-distinct keys every
lookup finds the entry's own value, so no finding is emitted. -/
theorem itemsLoop_self :
    ∀ (sub es : List (String × Value)),
      (∀ e ∈ sub, e ∈ es) →
      nodupKeys es = true →
      (∀ k tv, (k, tv) ∈ sub → ∀ tes2, tv = Value.vmap tes2 → WF tv = true →
        ∀ s2 i2 p2, validate_config tv tv s2 i2 p2 = .ok (true, [])) →
      (∀ k tv, (k, tv) ∈ sub → WF tv = true) →
      ∀ s i p, itemsLoop (Value.vmap es) sub s i p = .ok (true, []) := by
  intro sub
  induction sub with
  | nil => intro es _ _ _ _ s i p; exact itemsLoop_nil _ _ _ _
  | cons e rest ih =>
      intro es hsub hnd IH hwf s i p
      obtain ⟨key, tv⟩ := e
      rw [itemsLoop_cons]
      have hl : lookupKey es key = some tv :=
        lookupKey_of_nodup_mem hnd (hsub _ (List.mem_cons_self _ _))
      have hk : keyCheck (Value.vmap es) key tv s i p = .ok (true, []) := by
        rw [keyCheck_map_some hl]
        by_cases htd : isDict tv = true
        · obtain ⟨tes2, hteq⟩ := isDict_eq_true htd
          rw [if_pos htd, if_pos htd]
          exact IH key tv (List.mem_cons_self _ _) tes2 hteq
            (hwf key tv (List.mem_cons_self _ _)) s i (p ++ [key])
        · rw [if_neg htd, if_pos rfl]
      rw [hk, ih es (fun e2 he2 => hsub e2 (List.mem_cons_of_mem _ he2)) hnd
        (fun k tv2 hm => IH k tv2 (List.mem_cons_of_mem _ hm))
        (fun k tv2 hm => hwf k tv2 (List.mem_cons_of_mem _ hm)) s i p]
      rfl

/-- Master form: a well-formed dict validates against itself with no
findings, whatever the policy flags. -/
theorem validate_self_master :
    ∀ t (es : List (String × Value)), t = Value.vmap es → WF t = true →
      ∀ s i p, validate_config t t s i p = .ok (true, []) := by
  refine value_strong_ind
    (fun t => ∀ es, t = Value.vmap es → WF t = true →
      ∀ s i p, validate_config t t s i p = .ok (true, [])) ?_
  intro t IHt es hEq hwf s i p
  subst hEq
  rw [WF, Bool.and_eq_true] at hwf
  rw [validate_map_eq, itemsLoop_self es es (fun e he => he) hwf.1
    (fun k tv hm tes2 hteq hwtv s2 i2 p2 => IHt es k tv rfl hm tes2 hteq hwtv s2 i2 p2)
    (fun k tv hm => WFentries_mem hwf.2 hm) s i p]
  cases hflag : (!s && !i) with
  | true =>
      simp only [if_true, extraPass]
      rw [extraKeysMap_covered (fun e he => containsK_of_mem
        (show ((e.1 : String), e.2) ∈ es from by
          rw [show ((e.1 : String), e.2) = e from rfl]
          exact he))]
      rfl
  | false => simp

/-- Membership over append for key containment. -/
theorem containsK_append (a b : List (String × Value)) (k : String) :
    containsK (a ++ b) k = (containsK a k || containsK b k) := by
  simp [containsK, List.any_append]

/-- A key absent from an entry list differs from every entry's key. -/
theorem ne_of_not_containsK {es : List (String × Value)} {k : String}
    (h : containsK es k = false) : ∀ e ∈ es, e.1 ≠ k := by
  intro e he hEq
  have hmem2 : (k, e.2) ∈ es := by
    rw [← hEq, show ((e.1 : String), e.2) = e from rfl]
    exact he
  have : containsK es k = true := containsK_of_mem hmem2
  rw [h] at this
  cases this

/-- Pairwise-distinct keys separate a middle entry's key from all others. -/
theorem nodup_mid_ne {pre post : List (String × Value)} {k : String} {v : Value}
    (h : nodupKeys (pre ++ (k, v) :: post) = true) :
    (∀ e ∈ pre, e.1 ≠ k) ∧ (∀ e ∈ post, e.1 ≠ k) := by
  induction pre with
  | nil =>
      rw [List.nil_append, nodupKeys, Bool.and_eq_true, Bool.not_eq_true'] at h
      exact ⟨fun e he => absurd he (List.not_mem_nil e), ne_of_not_containsK h.1⟩
  | cons e2 rest ih =>
      rw [List.cons_append, nodupKeys, Bool.and_eq_true, Bool.not_eq_true'] at h
      obtain ⟨hrec1, hrec2⟩ := ih h.2
      refine ⟨?_, hrec2⟩
      intro e3 he3
      rcases List.mem_cons.mp he3 with hHead | hTail
      · subst hHead
        rw [containsK_append, Bool.or_eq_false_iff] at h
        intro hEq
        have : containsK ((k, v) :: post) e3.1 = true := by
          rw [containsK]
          simp [hEq]
        rw [h.1.2] at this
        cases this
      · exact hrec1 e3 hTail

/-- Replacing the value stored under a key does not change lookups of other
keys. -/
theorem lookupKey_mid_ne (pre post : List (String × Value)) (k k' : String)
    (hne : k ≠ k') (v v' : Value) :
    lookupKey (pre ++ (k, v) :: post) k' = lookupKey (pre ++ (k, v') :: post) k' := by
  induction pre with
  | nil =>
      have hb : (k == k') = false := by
        simp [hne]
      simp [lookupKey, hb]
  | cons e rest ih =>
      simp only [List.cons_append, lookupKey, List.append_eq]
      rw [ih]

/-- `pathUnder` ignores a common leading segment. -/
theorem pathUnder_append (q a b : List String) :
    pathUnder (q ++ a) (q ++ b) = pathUnder a b := by
  induction q with
  | nil => rfl
  | cons x rest ih => simp [pathUnder, ih]

/-- `pathUnder` of a single segment against a nonempty path tests its head. -/
theorem pathUnder_single (a b : String) (bs : List String) :
    pathUnder [a] (b :: bs) = (a == b) := by
  simp [pathUnder]

/-- Occurrence counts add up over concatenated reports. -/
theorem countF_append (a b : List Finding) (f : Finding) :
    countF (a ++ b) f = countF a f + countF b f := by
  simp [countF, List.filter_append]

/-- A report avoiding a finding contains it zero times. -/
theorem countF_eq_zero {fs : List Finding} {f : Finding}
    (h : ∀ g ∈ fs, g ≠ f) : countF fs f = 0 := by
  rw [countF, List.length_eq_zero, List.filter_eq_nil_iff]
  intro g hg
  simp [h g hg]

/-- Every finding of the dict-shaped extra-key pass comes from an entry whose
key is absent from the template. -/
theorem extraKeysMap_mem {ces tes : List (String × Value)} {p : List String}
    {f : Finding} (hf : f ∈ extraKeysMap ces tes p) :
    ∃ e ∈ ces, f = ⟨p ++ [e.1], FKind.extraKey, Severity.warning⟩ ∧
      containsK tes e.1 = false := by
  rcases List.mem_filterMap.mp hf with ⟨e, he, hcond⟩
  by_cases hc : containsK tes e.1
  · rw [if_pos hc] at hcond; cases hcond
  · rw [if_neg hc] at hcond
    simp only [Option.some.injEq] at hcond
    exact ⟨e, he, hcond.symm, by rw [Bool.eq_false_iff]; exact hc⟩

/-- The dict-shaped extra-key pass distributes over appended entry lists. -/
theorem extraKeysMap_append (a b tes : List (String × Value)) (p : List String) :
    extraKeysMap (a ++ b) tes p = extraKeysMap a tes p ++ extraKeysMap b tes p := by
  simp [extraKeysMap, List.filterMap_append]

/-- The dict-shaped extra-key pass depends only on the configuration's keys. -/
theorem extraKeysMap_congr :
    ∀ (ces1 ces2 tes : List (String × Value)) (p : List String),
      ces1.map Prod.fst = ces2.map Prod.fst →
      extraKeysMap ces1 tes p = extraKeysMap ces2 tes p := by
  intro ces1
  induction ces1 with
  | nil =>
      intro ces2 tes p hkeys
      cases ces2 with
      | nil => rfl
      | cons e2 rest2 => cases hkeys
  | cons e1 rest1 ih =>
      intro ces2 tes p hkeys
      cases ces2 with
      | nil => cases hkeys
      | cons e2 rest2 =>
          simp only [List.map_cons, List.cons.injEq] at hkeys
          simp only [extraKeysMap, List.filterMap_cons]
          rw [hkeys.1]
          have := ih rest2 tes p hkeys.2
          rw [extraKeysMap] at this
          rw [this]
          rfl

/-- The template loop depends on the configuration only through the lookups
of the iterated template keys. -/
theorem itemsLoop_congr :
    ∀ (tes ces1 ces2 : List (String × Value)),
      (∀ k', containsK tes k' = true → lookupKey ces1 k' = lookupKey ces2 k') →
      ∀ s i p, itemsLoop (Value.vmap ces1) tes s i p = itemsLoop (Value.vmap ces2) tes s i p := by
  intro tes
  induction tes with
  | nil => intro ces1 ces2 _ s i p; rw [itemsLoop_nil, itemsLoop_nil]
  | cons e rest ih =>
      intro ces1 ces2 hlook s i p
      obtain ⟨key, tv⟩ := e
      have hkey : containsK ((key, tv) :: rest) key = true := by
        simp [containsK]
      have hl12 := hlook key hkey
      have hrest : ∀ k', containsK rest k' = true → lookupKey ces1 k' = lookupKey ces2 k' := by
        intro k' hk'
        refine hlook k' ?_
        rw [containsK] at hk' ⊢
        simp only [List.any_cons]
        rw [hk']
        simp
      rw [itemsLoop_cons, itemsLoop_cons, ih ces1 ces2 hrest s i p]
      have hkc : keyCheck (Value.vmap ces1) key tv s i p
          = keyCheck (Value.vmap ces2) key tv s i p := by
        cases hl : lookupKey ces1 key with
        | none =>
            rw [keyCheck_map_none hl, keyCheck_map_none (by rw [← hl12]; exact hl)]
        | some cv =>
            rw [keyCheck_map_some hl, keyCheck_map_some (by rw [← hl12]; exact hl)]
      rw [hkc]

/-- Value-agnosticism: two dict configurations with the same keys whose
lookups agree on every template key produce identical runs. -/
theorem validate_map_congr (tes ces1 ces2 : List (String × Value))
    (hkeys : ces1.map Prod.fst = ces2.map Prod.fst)
    (hlook : ∀ k', containsK tes k' = true → lookupKey ces1 k' = lookupKey ces2 k') :
    ∀ s i p, validate_config (Value.vmap ces1) (Value.vmap tes) s i p
      = validate_config (Value.vmap ces2) (Value.vmap tes) s i p := by
  intro s i p
  rw [validate_map_eq, validate_map_eq, itemsLoop_congr tes ces1 ces2 hlook s i p]
  cases hr : itemsLoop (Value.vmap ces2) tes s i p with
  | error e => rfl
  | ok r =>
      cases hflag : (!s && !i) with
      | true =>
          simp only [if_true, extraPass]
          rw [extraKeysMap_congr ces1 ces2 tes p hkeys]
      | false => simp [hflag]


/-! ## Concrete evaluation lemmas used by the witnesses -/

/-- Scenario A of the spec under the default policy: type mismatch at
`port`, MissingKey warning at `host`, verdict invalid. -/
theorem evalScenarioA :
    validate_config (Value.vmap [("port", Value.vstr "8080")])
      (Value.vmap [("port", Value.vint 8080), ("host", Value.vstr "x")]) false false []
      = .ok (false, [⟨["port"], FKind.typeMismatch, Severity.error⟩,
          ⟨["host"], FKind.missingKey, Severity.warning⟩]) := by
  simp [validate_config, itemsLoop, keyCheck, containsKeyDyn, containsK, getItemDyn,
    lookupKey, isDict, pyType, extraPass, extraKeysMap]

/-- Scenario B of the spec: same inputs in strict mode upgrade the missing
key to an Error. -/
theorem evalScenarioB :
    validate_config (Value.vmap [("port", Value.vstr "8080")])
      (Value.vmap [("port", Value.vint 8080), ("host", Value.vstr "x")]) true false []
      = .ok (false, [⟨["port"], FKind.typeMismatch, Severity.error⟩,
          ⟨["host"], FKind.missingKey, Severity.error⟩]) := by
  simp [validate_config, itemsLoop, keyCheck, containsKeyDyn, containsK, getItemDyn,
    lookupKey, isDict, pyType, extraPass, extraKeysMap]

/-- A missing key with both `strict` and `ignore_missing` set is still an
Error and fails the run. -/
theorem evalMissingBothFlags :
    validate_config (Value.vmap []) (Value.vmap [("x", Value.vint 1)]) true true []
      = .ok (false, [⟨["x"], FKind.missingKey, Severity.error⟩]) := by
  simp [validate_config, itemsLoop, keyCheck, containsKeyDyn, containsK, getItemDyn,
    lookupKey, isDict, pyType, extraPass, extraKeysMap]

/-- A strict run over an empty template reports nothing, whatever extra keys
the configuration has. -/
theorem evalStrictEmptyTemplate :
    validate_config (Value.vmap [("b", Value.vint 2)]) (Value.vmap []) true false []
      = .ok (true, []) := by
  simp [validate_config, itemsLoop, keyCheck, containsKeyDyn, containsK, getItemDyn,
    lookupKey, isDict, pyType, extraPass, extraKeysMap]

/-- Scenario C of the spec (flattened one level): the extra configuration
key `c` is reported as a warning and the verdict stays valid. -/
theorem evalScenarioC :
    validate_config (Value.vmap [("b", Value.vint 1), ("c", Value.vint 2)])
      (Value.vmap [("b", Value.vint 1)]) false false []
      = .ok (true, [⟨["c"], FKind.extraKey, Severity.warning⟩]) := by
  simp [validate_config, itemsLoop, keyCheck, containsKeyDyn, containsK, getItemDyn,
    lookupKey, isDict, pyType, extraPass, extraKeysMap]

/-- Under `ignore_missing`, a run with one type mismatch and one missing key
reports only the mismatch. -/
theorem evalIgnoreMissing :
    validate_config (Value.vmap [("a", Value.vstr "z")])
      (Value.vmap [("a", Value.vint 1), ("b", Value.vint 2)]) false true []
      = .ok (false, [⟨["a"], FKind.typeMismatch, Severity.error⟩]) := by
  simp [validate_config, itemsLoop, keyCheck, containsKeyDyn, containsK, getItemDyn,
    lookupKey, isDict, pyType, extraPass, extraKeysMap]

/-- A sample two-level document has pairwise-distinct keys everywhere. -/
theorem wfSampleDoc :
    WF (Value.vmap [("a", Value.vint 1), ("b", Value.vmap [("c", Value.vstr "x")])])
      = true := by
  simp [WF, WFentries, WFvalues, nodupKeys, containsK]

/-! ## Claim theorems -/

/-- C1: for every configuration map, template map, and policy, the verdict
returned by `validate_config` is `True` if and only if no Error-severity
finding (missing key under strict, scalar type mismatch, or nested-object
type mismatch, at any depth) is produced anywhere during the whole recursive
walk; Warning-severity findings never change the verdict. -/
theorem claim1_verdict_iff_no_error (ces tes : List (String × Value)) (s i : Bool)
    (v : Bool) (fs : List Finding)
    (h : validate_config (Value.vmap ces) (Value.vmap tes) s i [] = .ok (v, fs)) :
    v = true ↔ ∀ f ∈ fs, f.severity ≠ Severity.error :=
  validate_valid_iff (Value.vmap tes) ces s i [] v fs h

/-- Witness for C1 at the spec's Scenario A inputs. -/
theorem claim1_verdict_iff_no_error_witness :
    validate_config (Value.vmap [("port", Value.vstr "8080")])
      (Value.vmap [("port", Value.vint 8080), ("host", Value.vstr "x")]) false false []
      = .ok (false, [⟨["port"], FKind.typeMismatch, Severity.error⟩,
          ⟨["host"], FKind.missingKey, Severity.warning⟩])
    ∧ (false = true ↔ ∀ f ∈ [(⟨["port"], FKind.typeMismatch, Severity.error⟩ : Finding),
          ⟨["host"], FKind.missingKey, Severity.warning⟩], f.severity ≠ Severity.error) :=
  ⟨evalScenarioA,
   claim1_verdict_iff_no_error [("port", Value.vstr "8080")]
     [("port", Value.vint 8080), ("host", Value.vstr "x")] false false false
     [⟨["port"], FKind.typeMismatch, Severity.error⟩,
      ⟨["host"], FKind.missingKey, Severity.warning⟩]
     evalScenarioA⟩

/-- C2 counterexample: a list configuration root against a map template is
not rejected: the walk proceeds (list membership is used for the key test),
emits an ordinary MissingKey warning and returns a normal verdict, so no
ShapeError-like precondition fault separates it from validation findings. -/
theorem claim2_counterexample :
    validate_config (Value.vlist []) (Value.vmap [("a", Value.vint 1)]) false false []
      = .ok (true, [⟨["a"], FKind.missingKey, Severity.warning⟩]) := by
  simp [validate_config, itemsLoop, keyCheck, containsKeyDyn, extraPass, extraList]

/-- C2 (amended): only a non-map template root makes `validate_config` fail
before attempting any comparison, and the failure is a Python
`AttributeError` (no `.items()` on the value), not a dedicated ShapeError;
a non-map configuration root is not checked up front. -/
theorem claim2_template_root_fault (config template : Value) (s i : Bool)
    (p : List String) (h : ∀ tes, template ≠ Value.vmap tes) :
    validate_config config template s i p = .error .attributeError := by
  cases template with
  | vmap tes => exact absurd rfl (h tes)
  | vnull => rw [validate_config] <;> first | rfl | (intro es hEq; cases hEq)
  | vbool b => rw [validate_config] <;> first | rfl | (intro es hEq; cases hEq)
  | vint n => rw [validate_config] <;> first | rfl | (intro es hEq; cases hEq)
  | vfloat lit => rw [validate_config] <;> first | rfl | (intro es hEq; cases hEq)
  | vstr s2 => rw [validate_config] <;> first | rfl | (intro es hEq; cases hEq)
  | vlist xs => rw [validate_config] <;> first | rfl | (intro es hEq; cases hEq)

/-- Witness for the amended C2 at an integer template root. -/
theorem claim2_template_root_fault_witness :
    (∀ tes, Value.vint 3 ≠ Value.vmap tes)
    ∧ validate_config (Value.vmap []) (Value.vint 3) false false [] = .error .attributeError :=
  ⟨fun _ hEq => Value.noConfusion hEq,
   claim2_template_root_fault _ _ _ _ _ (fun _ hEq => Value.noConfusion hEq)⟩

/-- C3: when both `strict` and `ignore_missing` are set, `strict` takes
precedence: a template key absent from the configuration at any reached
nesting level still yields an Error-severity MissingKey finding for that key
and the verdict is `False`. -/
theorem claim3_strict_beats_ignore_missing
    (ces tes : List (String × Value)) (q : List String)
    (ces1 tes1 : List (String × Value)) (k0 : String) (tv0 : Value)
    (v : Bool) (fs : List Finding)
    (hreach : Reaches ces tes q ces1 tes1)
    (hmem : (k0, tv0) ∈ tes1)
    (habs : containsK ces1 k0 = false)
    (h : validate_config (Value.vmap ces) (Value.vmap tes) true true [] = .ok (v, fs)) :
    Finding.mk (q ++ [k0]) FKind.missingKey Severity.error ∈ fs ∧ v = false := by
  obtain ⟨⟨v1, fs1⟩, h1⟩ := validate_config_ok (Value.vmap tes1) tes1 ces1 true true ([] ++ q) rfl
  have hsub := reaches_sub_run hreach true true [] v fs v1 fs1 h h1
  have hlocal := missing_at_level hmem habs true ([] ++ q) v1 fs1 h1
  constructor
  · have := hsub.1 _ hlocal.1
    simpa using this
  · exact hsub.2 hlocal.2

/-- Witness for C3 at the root level with one missing key. -/
theorem claim3_strict_beats_ignore_missing_witness :
    Reaches [] [("x", Value.vint 1)] [] [] [("x", Value.vint 1)]
    ∧ (("x", Value.vint 1) ∈ [("x", Value.vint 1)])
    ∧ containsK [] "x" = false
    ∧ validate_config (Value.vmap []) (Value.vmap [("x", Value.vint 1)]) true true []
        = .ok (false, [⟨["x"], FKind.missingKey, Severity.error⟩])
    ∧ (Finding.mk ([] ++ ["x"]) FKind.missingKey Severity.error
        ∈ [(⟨["x"], FKind.missingKey, Severity.error⟩ : Finding)] ∧ false = false) :=
  ⟨.here _ _, List.mem_cons_self _ _, rfl, evalMissingBothFlags,
   claim3_strict_beats_ignore_missing [] [("x", Value.vint 1)] [] [] [("x", Value.vint 1)]
     "x" (Value.vint 1) false [⟨["x"], FKind.missingKey, Severity.error⟩]
     (.here _ _) (List.mem_cons_self _ _) rfl evalMissingBothFlags⟩

/-- C4: the extra-key pass runs at every map level of the recursion (not only
the root), emitting a Warning ExtraKey finding for each configuration key
absent from the template at that level, but only when neither `strict` nor
`ignore_missing` is set; when either flag is set, no ExtraKey finding is ever
produced anywhere. -/
theorem claim4_extra_key_pass :
    (∀ (config template : Value) (s i : Bool) (p : List String) (v : Bool)
        (fs : List Finding), (s || i) = true →
        validate_config config template s i p = .ok (v, fs) →
        ∀ f ∈ fs, f.kind ≠ FKind.extraKey)
    ∧ (∀ (ces tes : List (String × Value)) (q : List String)
        (ces1 tes1 : List (String × Value)) (k0 : String) (v0 : Value) (v : Bool)
        (fs : List Finding),
        Reaches ces tes q ces1 tes1 → (k0, v0) ∈ ces1 → containsK tes1 k0 = false →
        validate_config (Value.vmap ces) (Value.vmap tes) false false [] = .ok (v, fs) →
        Finding.mk (q ++ [k0]) FKind.extraKey Severity.warning ∈ fs) := by
  constructor
  · intro config template s i p v fs hflag h f hf
    refine findings_pred_any (fun f => f.kind ≠ FKind.extraKey) s i ?_ ?_ ?_ ?_
      config template p v fs h f hf
    · intro pk _
      simp
    · intro pk _ _
      simp
    · intro pk
      simp
    · intro pk hs hi
      rw [hs, hi] at hflag
      cases hflag
  · intro ces tes q ces1 tes1 k0 v0 v fs hreach hmem habs h
    obtain ⟨⟨v1, fs1⟩, h1⟩ :=
      validate_config_ok (Value.vmap tes1) tes1 ces1 false false ([] ++ q) rfl
    have hsub := reaches_sub_run hreach false false [] v fs v1 fs1 h h1
    have hlocal := extra_at_level hmem habs ([] ++ q) v1 fs1 h1
    have := hsub.1 _ hlocal
    simpa using this

/-- Witness for C4: a strict run on a config with an extra key produces no
findings at all, and a default run reports the extra key of Scenario C. -/
theorem claim4_extra_key_pass_witness :
    ((true || false) = true
      ∧ validate_config (Value.vmap [("b", Value.vint 2)]) (Value.vmap []) true false []
          = .ok (true, [])
      ∧ ∀ f ∈ ([] : List Finding), f.kind ≠ FKind.extraKey)
    ∧ (Reaches [("b", Value.vint 1), ("c", Value.vint 2)] [("b", Value.vint 1)] []
          [("b", Value.vint 1), ("c", Value.vint 2)] [("b", Value.vint 1)]
      ∧ containsK [("b", Value.vint 1)] "c" = false
      ∧ validate_config (Value.vmap [("b", Value.vint 1), ("c", Value.vint 2)])
          (Value.vmap [("b", Value.vint 1)]) false false []
          = .ok (true, [⟨["c"], FKind.extraKey, Severity.warning⟩])
      ∧ Finding.mk ([] ++ ["c"]) FKind.extraKey Severity.warning
          ∈ [(⟨["c"], FKind.extraKey, Severity.warning⟩ : Finding)]) :=
  ⟨⟨rfl, evalStrictEmptyTemplate,
    claim4_extra_key_pass.1 (Value.vmap [("b", Value.vint 2)]) (Value.vmap []) true false []
      true [] rfl evalStrictEmptyTemplate⟩,
   ⟨.here _ _, rfl, evalScenarioC,
    claim4_extra_key_pass.2 [("b", Value.vint 1), ("c", Value.vint 2)] [("b", Value.vint 1)]
      [] [("b", Value.vint 1), ("c", Value.vint 2)] [("b", Value.vint 1)] "c" (Value.vint 2)
      true [⟨["c"], FKind.extraKey, Severity.warning⟩] (.here _ _)
      (List.mem_cons_of_mem _ (List.mem_cons_self _ _)) rfl evalScenarioC⟩⟩

/-- C5: with `ignore_missing = true` and `strict = false`, no MissingKey
finding of any severity is produced at any nesting level. -/
theorem claim5_ignore_missing_suppression (config template : Value)
    (p : List String) (v : Bool) (fs : List Finding)
    (h : validate_config config template false true p = .ok (v, fs)) :
    ∀ f ∈ fs, f.kind ≠ FKind.missingKey := by
  refine findings_pred_any (fun f => f.kind ≠ FKind.missingKey) false true ?_ ?_ ?_ ?_
    config template p v fs h
  · intro pk hs
    cases hs
  · intro pk _ hi
    cases hi
  · intro pk
    simp
  · intro pk _ hi
    cases hi

/-- Witness for C5: a run with a missing key and a type mismatch under
`ignore_missing` reports only the mismatch. -/
theorem claim5_ignore_missing_suppression_witness :
    validate_config (Value.vmap [("a", Value.vstr "z")])
      (Value.vmap [("a", Value.vint 1), ("b", Value.vint 2)]) false true []
      = .ok (false, [⟨["a"], FKind.typeMismatch, Severity.error⟩])
    ∧ ∀ f ∈ [(⟨["a"], FKind.typeMismatch, Severity.error⟩ : Finding)],
        f.kind ≠ FKind.missingKey :=
  ⟨evalIgnoreMissing,
   claim5_ignore_missing_suppression (Value.vmap [("a", Value.vstr "z")])
     (Value.vmap [("a", Value.vint 1), ("b", Value.vint 2)]) [] false
     [⟨["a"], FKind.typeMismatch, Severity.error⟩] evalIgnoreMissing⟩

/-- C6: for every non-dict template value and every configuration value with
the same runtime type tag but a possibly different payload, the comparison
emits no finding at all: only type tags are compared, never values. -/
theorem claim6_type_only_comparison (k : String) (tv cv : Value) (s i : Bool)
    (p : List String) (hpt : pyType tv = pyType cv) (hscalar : isDict tv = false) :
    validate_config (Value.vmap [(k, cv)]) (Value.vmap [(k, tv)]) s i p = .ok (true, []) := by
  have hl : lookupKey [(k, cv)] k = some cv := by simp [lookupKey]
  have hloop : itemsLoop (Value.vmap [(k, cv)]) [(k, tv)] s i p = .ok (true, []) := by
    rw [itemsLoop_cons, keyCheck_map_some hl, if_neg (by simp [hscalar]), if_pos hpt,
      itemsLoop_nil]
    rfl
  rw [validate_map_eq, hloop]
  have hcov : ∀ e ∈ [(k, cv)], containsK [(k, tv)] e.1 = true := by
    intro e he
    rcases List.mem_singleton.mp he with rfl
    simp [containsK]
  cases hflag : (!s && !i) with
  | true =>
      simp only [if_true, extraPass]
      rw [extraKeysMap_covered hcov]
      rfl
  | false => simp

/-- Witness for C6: two different integers with the same type tag validate
with no findings. -/
theorem claim6_type_only_comparison_witness :
    pyType (Value.vint 1) = pyType (Value.vint 42)
    ∧ isDict (Value.vint 1) = false
    ∧ validate_config (Value.vmap [("n", Value.vint 42)])
        (Value.vmap [("n", Value.vint 1)]) false false [] = .ok (true, []) :=
  ⟨rfl, rfl, claim6_type_only_comparison "n" (Value.vint 1) (Value.vint 42) false false []
    rfl rfl⟩

/-- Occurrence count of a finding in a one-longer report. -/
theorem countF_cons (g : Finding) (l : List Finding) (f : Finding) :
    countF (g :: l) f = (if g = f then 1 else 0) + countF l f := by
  by_cases hg : g = f
  · simp [countF, List.filter_cons, hg]
    omega
  · simp [countF, List.filter_cons, hg]

/-- C7: validating a well-formed map-shaped tree against itself produces
zero findings (in particular zero Error findings) and verdict `True`, for
every policy. -/
theorem claim7_self_validation (es : List (String × Value)) (s i : Bool)
    (hwf : WF (Value.vmap es) = true) :
    validate_config (Value.vmap es) (Value.vmap es) s i [] = .ok (true, []) :=
  validate_self_master (Value.vmap es) es rfl hwf s i []

/-- Witness for C7 on a nested two-level document. -/
theorem claim7_self_validation_witness :
    WF (Value.vmap [("a", Value.vint 1), ("b", Value.vmap [("c", Value.vstr "x")])]) = true
    ∧ validate_config
        (Value.vmap [("a", Value.vint 1), ("b", Value.vmap [("c", Value.vstr "x")])])
        (Value.vmap [("a", Value.vint 1), ("b", Value.vmap [("c", Value.vstr "x")])])
        true false [] = .ok (true, []) :=
  ⟨wfSampleDoc,
   claim7_self_validation [("a", Value.vint 1), ("b", Value.vmap [("c", Value.vstr "x")])]
     true false wfSampleDoc⟩

/-- C8: for a fixed configuration, template and `ignore_missing`, switching
`strict` from `False` to `True` never decreases the number of Error-severity
findings and never increases the number of Warning-severity MissingKey
findings. -/
theorem claim8_strict_monotonicity (ces tes : List (String × Value)) (i : Bool)
    (v0 v1 : Bool) (fs0 fs1 : List Finding)
    (h0 : validate_config (Value.vmap ces) (Value.vmap tes) false i [] = .ok (v0, fs0))
    (h1 : validate_config (Value.vmap ces) (Value.vmap tes) true i [] = .ok (v1, fs1)) :
    errCount fs0 ≤ errCount fs1 ∧ warnMissingCount fs1 ≤ warnMissingCount fs0 :=
  validate_strict_mono_master (Value.vmap tes) ces i [] v0 fs0 v1 fs1 h0 h1

/-- Witness for C8 at the spec's Scenario A/B inputs. -/
theorem claim8_strict_monotonicity_witness :
    validate_config (Value.vmap [("port", Value.vstr "8080")])
      (Value.vmap [("port", Value.vint 8080), ("host", Value.vstr "x")]) false false []
      = .ok (false, [⟨["port"], FKind.typeMismatch, Severity.error⟩,
          ⟨["host"], FKind.missingKey, Severity.warning⟩])
    ∧ validate_config (Value.vmap [("port", Value.vstr "8080")])
        (Value.vmap [("port", Value.vint 8080), ("host", Value.vstr "x")]) true false []
        = .ok (false, [⟨["port"], FKind.typeMismatch, Severity.error⟩,
            ⟨["host"], FKind.missingKey, Severity.error⟩])
    ∧ (errCount [⟨["port"], FKind.typeMismatch, Severity.error⟩,
          ⟨["host"], FKind.missingKey, Severity.warning⟩]
        ≤ errCount [⟨["port"], FKind.typeMismatch, Severity.error⟩,
          ⟨["host"], FKind.missingKey, Severity.error⟩]
      ∧ warnMissingCount [⟨["port"], FKind.typeMismatch, Severity.error⟩,
          ⟨["host"], FKind.missingKey, Severity.error⟩]
        ≤ warnMissingCount [⟨["port"], FKind.typeMismatch, Severity.error⟩,
          ⟨["host"], FKind.missingKey, Severity.warning⟩]) :=
  ⟨evalScenarioA, evalScenarioB,
   claim8_strict_monotonicity [("port", Value.vstr "8080")]
     [("port", Value.vint 8080), ("host", Value.vstr "x")] false false false
     [⟨["port"], FKind.typeMismatch, Severity.error⟩,
      ⟨["host"], FKind.missingKey, Severity.warning⟩]
     [⟨["port"], FKind.typeMismatch, Severity.error⟩,
      ⟨["host"], FKind.missingKey, Severity.error⟩]
     evalScenarioA evalScenarioB⟩

/-- C9: when `strict` is `True`, the entire output of `validate_config`
(verdict, findings, or raised fault) is independent of the `ignore_missing`
flag, for every configuration and template. -/
theorem claim9_strict_ig_independence (config template : Value) (p : List String) :
    validate_config config template true false p
      = validate_config config template true true p :=
  validate_strict_ig_master template config p

/-- C10: the subtree stored under a configuration key absent from the
template is never inspected: replacing it by any other value leaves the whole
output (verdict and findings) unchanged, the only finding whose path reaches
into that key is the single ExtraKey warning for the key itself, and when
`strict` or `ignore_missing` is set there is no finding under that key at
all. -/
theorem claim10_extra_subtree_unread
    (pre post : List (String × Value)) (k : String) (v v' : Value)
    (tes : List (String × Value)) (s i : Bool) (p : List String)
    (habs : containsK tes k = false)
    (hnd : nodupKeys (pre ++ (k, v) :: post) = true) :
    validate_config (Value.vmap (pre ++ (k, v') :: post)) (Value.vmap tes) s i p
      = validate_config (Value.vmap (pre ++ (k, v) :: post)) (Value.vmap tes) s i p
    ∧ ∀ vv fs,
        validate_config (Value.vmap (pre ++ (k, v) :: post)) (Value.vmap tes) s i p
          = .ok (vv, fs) →
        (∀ f ∈ fs, pathUnder (p ++ [k]) f.path = true →
            f = ⟨p ++ [k], FKind.extraKey, Severity.warning⟩ ∧ s = false ∧ i = false)
        ∧ (s = false → i = false →
            countF fs ⟨p ++ [k], FKind.extraKey, Severity.warning⟩ = 1) := by
  constructor
  · refine validate_map_congr tes _ _ ?_ ?_ s i p
    · simp
    · intro k' hk'
      have hne : k ≠ k' := by
        intro hEq
        rw [← hEq, habs] at hk'
        cases hk'
      exact lookupKey_mid_ne pre post k k' hne v' v
  · intro vv fs h
    rw [validate_map_eq] at h
    cases hloop : itemsLoop (Value.vmap (pre ++ (k, v) :: post)) tes s i p with
    | error e => rw [hloop] at h; cases h
    | ok r =>
        obtain ⟨v0, fs0⟩ := r
        rw [hloop] at h
        have hLoopNot : ∀ f ∈ fs0, pathUnder (p ++ [k]) f.path = false := by
          intro f hf
          obtain ⟨k2, rest2, hpath, hck⟩ := itemsLoop_heads tes _ s i p v0 fs0 hloop f hf
          rw [hpath, pathUnder_append p [k] (k2 :: rest2), pathUnder_single]
          cases hkk : (k == k2) with
          | false => rfl
          | true =>
              have hk2 : k = k2 := eq_of_beq hkk
              rw [← hk2, habs] at hck
              cases hck
        have hLoopNe : ∀ g ∈ fs0,
            g ≠ (⟨p ++ [k], FKind.extraKey, Severity.warning⟩ : Finding) := by
          intro g hg hEq
          have hng := hLoopNot g hg
          rw [hEq] at hng
          have : pathUnder (p ++ [k]) (p ++ [k]) = false := hng
          rw [pathUnder_append p [k] [k]] at this
          simp [pathUnder] at this
        cases hflag : (!s && !i) with
        | false =>
            rw [hflag] at h
            simp only [Bool.false_eq_true, if_false, Except.ok.injEq, Prod.mk.injEq] at h
            obtain ⟨rfl, rfl⟩ := h
            constructor
            · intro f hf hU
              have := hLoopNot f hf
              rw [hU] at this
              cases this
            · intro hs hi
              rw [hs, hi] at hflag
              cases hflag
        | true =>
            rw [hflag] at h
            simp only [if_true, extraPass, Except.ok.injEq, Prod.mk.injEq] at h
            obtain ⟨rfl, rfl⟩ := h
            have hs : s = false := by
              cases s with
              | false => rfl
              | true => simp at hflag
            have hi : i = false := by
              cases i with
              | false => rfl
              | true => simp [hs] at hflag
            constructor
            · intro f hf hU
              rcases List.mem_append.mp hf with h1 | h1
              · have := hLoopNot f h1
                rw [hU] at this
                cases this
              · obtain ⟨e, he, hfe, hcke⟩ := extraKeysMap_mem h1
                have hU2 : pathUnder (p ++ [k]) (p ++ [e.1]) = true := by
                  rw [hfe] at hU
                  exact hU
                rw [pathUnder_append p [k] [e.1], pathUnder_single] at hU2
                have hk1 : k = e.1 := eq_of_beq hU2
                refine ⟨?_, hs, hi⟩
                rw [hfe, ← hk1]
            · intro _ _
              rw [countF_append, countF_eq_zero hLoopNe, extraKeysMap_append, countF_append]
              have hpre0 : countF (extraKeysMap pre tes p)
                  ⟨p ++ [k], FKind.extraKey, Severity.warning⟩ = 0 := by
                refine countF_eq_zero ?_
                intro g hg hEq
                obtain ⟨e, he, hfe, _⟩ := extraKeysMap_mem hg
                have hne := (nodup_mid_ne hnd).1 e he
                rw [hfe] at hEq
                have hpaths : p ++ [e.1] = p ++ [k] := congrArg Finding.path hEq
                have := List.append_cancel_left hpaths
                simp only [List.cons.injEq, and_true] at this
                exact hne this
              have hpost0 : countF (extraKeysMap post tes p)
                  ⟨p ++ [k], FKind.extraKey, Severity.warning⟩ = 0 := by
                refine countF_eq_zero ?_
                intro g hg hEq
                obtain ⟨e, he, hfe, _⟩ := extraKeysMap_mem hg
                have hne := (nodup_mid_ne hnd).2 e he
                rw [hfe] at hEq
                have hpaths : p ++ [e.1] = p ++ [k] := congrArg Finding.path hEq
                have := List.append_cancel_left hpaths
                simp only [List.cons.injEq, and_true] at this
                exact hne this
              have hmid : extraKeysMap ((k, v) :: post) tes p
                  = (⟨p ++ [k], FKind.extraKey, Severity.warning⟩ : Finding)
                      :: extraKeysMap post tes p := by
                simp only [extraKeysMap, List.filterMap_cons]
                rw [if_neg (by simp [habs])]
              rw [hmid, countF_cons, if_pos rfl, hpre0, hpost0]

/-- Witness for C10: replacing a deep dict stored under an extra key by an
integer changes nothing, and the only finding under the key is its single
ExtraKey warning. -/
theorem claim10_extra_subtree_unread_witness :
    containsK [("a", Value.vint 1)] "x" = false
    ∧ nodupKeys [("a", Value.vint 2), ("x", Value.vmap [("deep", Value.vint 1)])] = true
    ∧ (validate_config (Value.vmap [("a", Value.vint 2), ("x", Value.vint 7)])
        (Value.vmap [("a", Value.vint 1)]) false false []
      = validate_config
          (Value.vmap [("a", Value.vint 2), ("x", Value.vmap [("deep", Value.vint 1)])])
          (Value.vmap [("a", Value.vint 1)]) false false [])
    ∧ ∀ vv fs,
        validate_config
          (Value.vmap [("a", Value.vint 2), ("x", Value.vmap [("deep", Value.vint 1)])])
          (Value.vmap [("a", Value.vint 1)]) false false [] = .ok (vv, fs) →
        (∀ f ∈ fs, pathUnder ([] ++ ["x"]) f.path = true →
            f = ⟨[] ++ ["x"], FKind.extraKey, Severity.warning⟩ ∧ false = false ∧ false = false)
        ∧ (false = false → false = false →
            countF fs ⟨[] ++ ["x"], FKind.extraKey, Severity.warning⟩ = 1) := by
  refine ⟨rfl, rfl, ?_, ?_⟩
  · exact (claim10_extra_subtree_unread [("a", Value.vint 2)] []
      "x" (Value.vmap [("deep", Value.vint 1)]) (Value.vint 7)
      [("a", Value.vint 1)] false false [] rfl rfl).1
  · exact (claim10_extra_subtree_unread [("a", Value.vint 2)] []
      "x" (Value.vmap [("deep", Value.vint 1)]) (Value.vint 7)
      [("a", Value.vint 1)] false false [] rfl rfl).2

end ConfigEnforcer
